import Mathlib

/-!
Verification of the rule-based renaming engine of the FileFlow repository.

The Python source (`copy_script.py`, `src/rules.py`) is shallowly embedded here:
strings are lists of characters (`Str`), Python's unbounded `int` is `Int`,
mutable rule objects become values threaded through the functions, and the
stateful methods (`get_value`, `reset`, `increment_batch`) return the updated
rule.  Python's `str.replace` / `in` on strings are embedded as `replaceAll` /
`containsSub` on `List Char` (leftmost, non-overlapping replacement of all
occurrences, exactly Python's semantics for a non-empty search string; the
search strings used by the program, `"{" + tag_name + "}"`, are never empty).
`replaceAll` is defined through a fuel counter (fuel `s.length` always
suffices, see `replaceAllFuel_congr`) so that it is structurally recursive and
hence computable by the kernel.

Python raises `ZeroDivisionError` on `x % 0`; rule steps are modelled as `Nat`
and theorems about stepping carry a `0 < step` hypothesis matching the
data-model invariant `step ≥ 1`.
-/

set_option maxRecDepth 10000

abbrev Str := List Char

/-- Decimal digit character, as in Python's `str` rendering of integers. -/
def digitCh (n : Nat) : Char :=
  if n = 0 then '0' else if n = 1 then '1' else if n = 2 then '2'
  else if n = 3 then '3' else if n = 4 then '4' else if n = 5 then '5'
  else if n = 6 then '6' else if n = 7 then '7' else if n = 8 then '8' else '9'

/-- Digits of a natural number, most significant first; `fuel ≥ n + 1` suffices. -/
def natDigits : Nat → Nat → Str
  | 0, _ => []
  | fuel + 1, n =>
    if n < 10 then [digitCh n] else natDigits fuel (n / 10) ++ [digitCh (n % 10)]

/-- Python `str(n)` for a natural number. -/
def natStr (n : Nat) : Str := natDigits (n + 1) n

/-- Python `str(i)` for an integer. -/
def intStr (i : Int) : Str := if i < 0 then '-' :: natStr i.natAbs else natStr i.natAbs

/-- Embedding of `CounterRule` (`src/rules.py`, duplicated in `copy_script.py`). -/
structure CounterRule where
  tag_name : Str
  start_value : Int
  increment : Int
  step : Nat
  max_value : Option Int
  current_value : Int
  operation_count : Nat
  deriving DecidableEq

/-- `CounterRule.get_value`: return the pre-advance value, bump the operation
count, and advance/wrap when the count reaches a multiple of `step`.  The
`file_index`/`batch_count` arguments are accepted and ignored, as in the source. -/
def CounterRule.get_value (r : CounterRule) (file_index batch_count : Nat) :
    Str × CounterRule :=
  let value := r.current_value
  let oc := r.operation_count + 1
  let cv :=
    if oc % r.step = 0 then
      let c := r.current_value + r.increment
      match r.max_value with
      | some m => if c > m then r.start_value else c
      | none => c
    else r.current_value
  (intStr value, { r with operation_count := oc, current_value := cv })

def CounterRule.reset (r : CounterRule) : CounterRule :=
  { r with current_value := r.start_value, operation_count := 0 }

/-- Embedding of `ListRule`. -/
structure ListRule where
  tag_name : Str
  values : List Str
  step : Nat
  current_index : Nat
  operation_count : Nat
  deriving DecidableEq

/-- `ListRule.get_value`: empty value list short-circuits to `""` (without
touching any state, as the early `return` in the source); otherwise read at
`current_index mod len`, bump the count, advance the index on step boundaries. -/
def ListRule.get_value (r : ListRule) (file_index batch_count : Nat) :
    Str × ListRule :=
  if r.values = [] then ([], r)
  else
    let value := r.values.getD (r.current_index % r.values.length) []
    let oc := r.operation_count + 1
    let ci := if oc % r.step = 0 then r.current_index + 1 else r.current_index
    (value, { r with operation_count := oc, current_index := ci })

def ListRule.reset (r : ListRule) : ListRule :=
  { r with current_index := 0, operation_count := 0 }

/-- Embedding of `BatchRule`. -/
structure BatchRule where
  tag_name : Str
  start_value : Int
  increment : Int
  step : Nat
  max_value : Option Int
  current_value : Int
  batch_count : Nat
  deriving DecidableEq

/-- `BatchRule.get_value` returns the current value and changes nothing. -/
def BatchRule.get_value (r : BatchRule) (file_index batch_count : Nat) :
    Str × BatchRule :=
  (intStr r.current_value, r)

/-- `BatchRule.reset` is deliberately a no-op in the source. -/
def BatchRule.reset (r : BatchRule) : BatchRule := r

/-- `BatchRule.increment_batch`: bump the batch count and advance/wrap the
value on step boundaries, with the same wrap-to-start logic as the counter. -/
def BatchRule.increment_batch (r : BatchRule) : BatchRule :=
  let bc := r.batch_count + 1
  let cv :=
    if bc % r.step = 0 then
      let c := r.current_value + r.increment
      match r.max_value with
      | some m => if c > m then r.start_value else c
      | none => c
    else r.current_value
  { r with batch_count := bc, current_value := cv }

/-- The polymorphic rule, `Rule`'s three concrete subclasses as a sum. -/
inductive Rule
  | counter : CounterRule → Rule
  | list : ListRule → Rule
  | batch : BatchRule → Rule
  deriving DecidableEq

def Rule.tag_name : Rule → Str
  | .counter r => r.tag_name
  | .list r => r.tag_name
  | .batch r => r.tag_name

def Rule.get_value : Rule → Nat → Nat → Str × Rule
  | .counter r, fi, tf => ((r.get_value fi tf).1, .counter (r.get_value fi tf).2)
  | .list r, fi, tf => ((r.get_value fi tf).1, .list (r.get_value fi tf).2)
  | .batch r, fi, tf => ((r.get_value fi tf).1, .batch (r.get_value fi tf).2)

def Rule.reset : Rule → Rule
  | .counter r => .counter r.reset
  | .list r => .list r.reset
  | .batch r => .batch r.reset

/-- Serialized form of a counter rule.  Required keys are plain fields;
`step` and `max_value` are optional in the loader (`data.get`), and a stored
`None` is indistinguishable from a missing key, so both are `Option`. -/
structure CounterDict where
  tag_name : Str
  start_value : Int
  increment : Int
  step : Option Nat
  max_value : Option Int
  deriving DecidableEq

def CounterRule.to_dict (r : CounterRule) : CounterDict :=
  { tag_name := r.tag_name, start_value := r.start_value, increment := r.increment,
    step := some r.step, max_value := r.max_value }

def CounterRule.from_dict (d : CounterDict) : CounterRule :=
  { tag_name := d.tag_name, start_value := d.start_value, increment := d.increment,
    step := d.step.getD 1, max_value := d.max_value,
    current_value := d.start_value, operation_count := 0 }

/-- Serialized form of a list rule. -/
structure ListDict where
  tag_name : Str
  values : List Str
  step : Option Nat
  deriving DecidableEq

def ListRule.to_dict (r : ListRule) : ListDict :=
  { tag_name := r.tag_name, values := r.values, step := some r.step }

def ListRule.from_dict (d : ListDict) : ListRule :=
  { tag_name := d.tag_name, values := d.values, step := d.step.getD 1,
    current_index := 0, operation_count := 0 }

/-- Serialized form of a batch rule: constructor fields plus the current
progress (`current_value`, `batch_count`), themselves optional in the loader. -/
structure BatchDict where
  tag_name : Str
  start_value : Int
  increment : Int
  step : Option Nat
  max_value : Option Int
  current_value : Option Int
  batch_count : Option Nat
  deriving DecidableEq

def BatchRule.to_dict (r : BatchRule) : BatchDict :=
  { tag_name := r.tag_name, start_value := r.start_value, increment := r.increment,
    step := some r.step, max_value := r.max_value,
    current_value := some r.current_value, batch_count := some r.batch_count }

def BatchRule.from_dict (d : BatchDict) : BatchRule :=
  { tag_name := d.tag_name, start_value := d.start_value, increment := d.increment,
    step := d.step.getD 1, max_value := d.max_value,
    current_value := d.current_value.getD d.start_value,
    batch_count := d.batch_count.getD 0 }

/-- Serialized rules tagged by the `type` discriminator. -/
inductive RuleDict
  | counter : CounterDict → RuleDict
  | list : ListDict → RuleDict
  | batch : BatchDict → RuleDict
  deriving DecidableEq

def Rule.to_dict : Rule → RuleDict
  | .counter r => .counter r.to_dict
  | .list r => .list r.to_dict
  | .batch r => .batch r.to_dict

def Rule.from_dict : RuleDict → Rule
  | .counter d => .counter (CounterRule.from_dict d)
  | .list d => .list (ListRule.from_dict d)
  | .batch d => .batch (BatchRule.from_dict d)

/-- Values returned by `k` successive `get_value` calls on a rule. -/
def Rule.valueSeq : Rule → Nat → List Str
  | _, 0 => []
  | r, k + 1 => (r.get_value 0 0).1 :: (r.get_value 0 0).2.valueSeq k

/-- Values returned by `k` successive `get_value` calls on a counter rule. -/
def CounterRule.valueSeq : CounterRule → Nat → List Str
  | _, 0 => []
  | r, k + 1 => (r.get_value 0 0).1 :: (r.get_value 0 0).2.valueSeq k

/-- Values returned by `k` successive `get_value` calls on a list rule. -/
def ListRule.valueSeq : ListRule → Nat → List Str
  | _, 0 => []
  | r, k + 1 => (r.get_value 0 0).1 :: (r.get_value 0 0).2.valueSeq k

/-- Python's `pat in s` on strings: substring containment. -/
def containsSub (s pat : Str) : Bool :=
  match s with
  | [] => pat.isEmpty
  | _ :: cs => pat.isPrefixOf s || containsSub cs pat

/-- Fuelled worker for `replaceAll`; fuel `s.length` always suffices. -/
def replaceAllFuel (pat rep : Str) : Nat → Str → Str
  | 0, s => s
  | fuel + 1, s =>
    match s with
    | [] => []
    | c :: cs =>
      if pat ≠ [] ∧ pat <+: (c :: cs) then
        rep ++ replaceAllFuel pat rep fuel ((c :: cs).drop pat.length)
      else c :: replaceAllFuel pat rep fuel cs

/-- Python's `s.replace(pat, rep)` for non-empty `pat`: replace every
occurrence, scanning left to right without overlap.  (For `pat = []` this
returns `s`; the program only ever replaces `"{" + tag + "}"`, never empty.) -/
def replaceAll (s pat rep : Str) : Str := replaceAllFuel pat rep s.length s

theorem replaceAllFuel_congr (pat rep : Str) :
    ∀ f₁ f₂ s, s.length ≤ f₁ → s.length ≤ f₂ →
      replaceAllFuel pat rep f₁ s = replaceAllFuel pat rep f₂ s := by
  intro f₁
  induction f₁ with
  | zero =>
    intro f₂ s hs _
    interval_cases hl : s.length
    · rw [List.length_eq_zero] at hl
      subst hl
      cases f₂ <;> rfl
  | succ f ih =>
    intro f₂ s hs₁ hs₂
    match s with
    | [] => cases f₂ <;> rfl
    | c :: cs =>
      match f₂ with
      | 0 => simp at hs₂
      | g + 1 =>
        show replaceAllFuel pat rep (f + 1) (c :: cs)
            = replaceAllFuel pat rep (g + 1) (c :: cs)
        rw [replaceAllFuel, replaceAllFuel]
        by_cases h : pat ≠ [] ∧ pat <+: (c :: cs)
        · rw [if_pos h, if_pos h]
          have hp : 1 ≤ pat.length := by
        
            cases pat with
            | nil => exact absurd rfl h.1
            | cons p ps => simp
          have hd : ((c :: cs).drop pat.length).length ≤ f := by
            simp only [List.length_drop, List.length_cons]
            simp only [List.length_cons] at hs₁
            omega
          have hd₂ : ((c :: cs).drop pat.length).length ≤ g := by
            simp only [List.length_drop, List.length_cons]
            simp only [List.length_cons] at hs₂
            omega
          rw [ih g _ hd hd₂]
        · rw [if_neg h, if_neg h]
          have h₁ : cs.length ≤ f := by simp at hs₁; omega
          have h₂ : cs.length ≤ g := by simp at hs₂; omega
          rw [ih g _ h₁ h₂]

theorem replaceAll_nil (pat rep : Str) : replaceAll [] pat rep = [] := rfl

theorem replaceAll_cons (c : Char) (cs pat rep : Str) :
    replaceAll (c :: cs) pat rep =
      if pat ≠ [] ∧ pat <+: (c :: cs) then
        rep ++ replaceAll ((c :: cs).drop pat.length) pat rep
      else c :: replaceAll cs pat rep := by
  show replaceAllFuel pat rep (cs.length + 1) (c :: cs) = _
  rw [replaceAllFuel]
  by_cases h : pat ≠ [] ∧ pat <+: (c :: cs)
  · rw [if_pos h, if_pos h]
    congr 1
    have hp : 1 ≤ pat.length := by
      cases pat with
      | nil => exact absurd rfl h.1
      | cons p ps => simp
    apply replaceAllFuel_congr
    · simp only [List.length_drop, List.length_cons]; omega
    · rfl
  · rw [if_neg h, if_neg h]
    rfl

/-- The placeholder string `"{" + tag_name + "}"` built by the source. -/
def tagStr (n : Str) : Str := '{' :: n ++ ['}']

def tagOf (r : Rule) : Str := tagStr r.tag_name

/-- Embedding of `generate_filename` (`copy_script.py`): walk the rules in
order; for each rule whose tag occurs in the working pattern, consume a value
and replace every occurrence of the tag; other rules are left untouched.  The
updated rules (Python mutates them in place) are returned alongside the name. -/
def generate_filename (file_index total_files : Nat) : Str → List Rule → Str × List Rule
  | pattern, [] => (pattern, [])
  | pattern, r :: rs =>
    if containsSub pattern (tagOf r) then
      let p := r.get_value file_index total_files
      let q := generate_filename file_index total_files (replaceAll pattern (tagOf r) p.1) rs
      (q.1, p.2 :: q.2)
    else
      let q := generate_filename file_index total_files pattern rs
      (q.1, r :: q.2)

/-- Embedding of `_create_temp_rule_copy`: build a fresh rule from the
constructor fields (for Batch also copying the live progress), then `reset` it. -/
def _create_temp_rule_copy : Rule → Rule
  | .counter r =>
    Rule.reset (.counter
      { tag_name := r.tag_name, start_value := r.start_value, increment := r.increment,
        step := r.step, max_value := r.max_value,
        current_value := r.start_value, operation_count := 0 })
  | .list r =>
    Rule.reset (.list
      { tag_name := r.tag_name, values := r.values, step := r.step,
        current_index := 0, operation_count := 0 })
  | .batch r =>
    Rule.reset (.batch
      { tag_name := r.tag_name, start_value := r.start_value, increment := r.increment,
        step := r.step, max_value := r.max_value,
        current_value := r.current_value, batch_count := r.batch_count })

/-- Apply `get_value` for call ordinals `j, j+1, …, j+k-1`, keeping the state. -/
def runCalls (total : Nat) : Rule → Nat → Nat → Rule
  | r, _, 0 => r
  | r, j, k + 1 => runCalls total (r.get_value j total).2 (j + 1) k

/-- Embedding of `generate_filename_preview`: like `generate_filename`, but
each involved rule is simulated on a disposable copy — replay calls
`j = 0 … file_index - 1` on the copy, then substitute the value of call
`j = file_index` (the source's loop keeps exactly that last value).  The real
rules are returned unchanged. -/
def generate_filename_preview (file_index total_files : Nat) : Str → List Rule → Str × List Rule
  | pattern, [] => (pattern, [])
  | pattern, r :: rs =>
    if containsSub pattern (tagOf r) then
      let temp := runCalls total_files (_create_temp_rule_copy r) 0 file_index
      let value := (temp.get_value file_index total_files).1
      let q := generate_filename_preview file_index total_files
        (replaceAll pattern (tagOf r) value) rs
      (q.1, r :: q.2)
    else
      let q := generate_filename_preview file_index total_files pattern rs
      (q.1, r :: q.2)

/-- The name-generation part of a commit pass over `k` files with call
ordinals `i, i+1, …` (the loop body of `copy_and_rename` restricted to
naming): produces the generated base names in order, threading rule state. -/
def commitPassAux (pattern : Str) (total : Nat) : Nat → Nat → List Rule → List Str × List Rule
  | _, 0, rules => ([], rules)
  | i, k + 1, rules =>
    let g := generate_filename i total pattern rules
    let q := commitPassAux pattern total (i + 1) k g.2
    (g.1 :: q.1, q.2)

/-- A full commit pass over `n` (all present) files: reset every rule, then
generate one name per file in order. -/
def commitPass (pattern : Str) (n : Nat) (rules : List Rule) : List Str × List Rule :=
  commitPassAux pattern n 0 n (rules.map Rule.reset)

/-- A tracked file as the commit loop observes it: its extension
(`os.path.splitext(...)[1]`), whether it still exists on disk when the loop
reaches it, and whether `shutil.copy2` succeeds on it (`copy_ok = false`
models the copy raising, the only exception source modelled here). -/
structure TFile where
  ext : Str
  still_exists : Bool
  copy_ok : Bool
  deriving DecidableEq

/-- The policy the user chose in the existing-files dialog.  `cancel` returns
before the loop; a `None` action behaves like `overwrite` in the loop. -/
inductive FileAction
  | overwrite
  | rename
  | ignore
  deriving DecidableEq

/-- Mutable state of one commit pass: the live rules, the destination-folder
contents (as a list of full file names), the copied/skipped counters, the
names actually copied, and (for specification purposes) the generated base
names in order. -/
structure CommitSt where
  rules : List Rule
  dest : List Str
  copied : Nat
  skipped : Nat
  copiedNames : List Str
  genNames : List Str
  deriving DecidableEq

/-- The `while os.path.exists(dest_path)` loop of the `rename` policy: try
`name_1`, `name_2`, … and return the first candidate not in the destination.
`dest.length + 1` fuel always finds a free name; on exhaustion the last
candidate is returned unchecked (unreachable, and irrelevant to the claims). -/
def findUnique (name_part ext : Str) (dest : List Str) : Nat → Nat → Str
  | k, 0 => name_part ++ '_' :: natStr k ++ ext
  | k, fuel + 1 =>
    let cand := name_part ++ '_' :: natStr k ++ ext
    if cand ∈ dest then findUnique name_part ext dest (k + 1) fuel else cand

/-- `shutil.copy2`: on success the destination gains the name (overwriting
keeps the listing unchanged) and the copied counter advances; on failure the
exception aborts the pass with the state mutated so far. -/
def copyStep (path : Str) (f : TFile) (st : CommitSt) : CommitSt × Bool :=
  if f.copy_ok then
    ({ st with dest := if path ∈ st.dest then st.dest else st.dest ++ [path],
               copied := st.copied + 1, copiedNames := st.copiedNames ++ [path] }, true)
  else (st, false)

/-- The `for i, file_path in enumerate(self.tracked_files)` loop of
`copy_and_rename`: files that vanished are skipped without generating a name;
for the rest a name is generated (mutating the rules), the chosen policy is
applied if the destination already holds that name, and the file is copied.
The second component is `false` when an exception aborted the loop. -/
def commitLoopC (pattern : Str) (total : Nat) (action : FileAction) :
    Nat → List TFile → CommitSt → CommitSt × Bool
  | _, [], st => (st, true)
  | i, f :: fs, st =>
    if f.still_exists then
      let g := generate_filename i total pattern st.rules
      let dest_path := g.1 ++ f.ext
      let st' := { st with rules := g.2, genNames := st.genNames ++ [g.1] }
      if dest_path ∈ st'.dest then
        match action with
        | .ignore =>
          commitLoopC pattern total action (i + 1) fs { st' with skipped := st'.skipped + 1 }
        | .rename =>
          let path₂ := findUnique g.1 f.ext st'.dest 1 (st'.dest.length + 1)
          let c := copyStep path₂ f st'
          if c.2 then commitLoopC pattern total action (i + 1) fs c.1 else (c.1, false)
        | .overwrite =>
          let c := copyStep dest_path f st'
          if c.2 then commitLoopC pattern total action (i + 1) fs c.1 else (c.1, false)
      else
        let c := copyStep dest_path f st'
        if c.2 then commitLoopC pattern total action (i + 1) fs c.1 else (c.1, false)
    else commitLoopC pattern total action (i + 1) fs st

/-- `isinstance(rule, BatchRule)`-guarded `increment_batch`, run once per rule
after the loop. -/
def advanceIfBatch : Rule → Rule
  | .batch b => .batch b.increment_batch
  | r => r

/-- Result of one `copy_and_rename` call. -/
structure AppResult where
  rules : List Rule
  tracked : List TFile
  dest : List Str
  copied : Nat
  skipped : Nat
  copiedNames : List Str
  ok : Bool
  deriving DecidableEq

/-- The `try:` block of `copy_and_rename` (the commit pass proper; the guard
clauses and dialogs before it return without touching any state, and the
status-label updates after it are UI only): reset all rules, run the loop,
then — only if no exception was raised — advance every batch rule once and
clear the tracked-file list.  On an exception the `except` handler reports and
leaves the partially mutated state as is: tracked files keep their list, batch
rules are not advanced, and files already copied stay copied. -/
def copy_and_rename_run (pattern : Str) (action : FileAction) (tracked : List TFile)
    (rules : List Rule) (dest : List Str) : AppResult :=
  let rules₀ := rules.map Rule.reset
  let lr := commitLoopC pattern tracked.length action 0 tracked
    ⟨rules₀, dest, 0, 0, [], []⟩
  if lr.2 then
    { rules := lr.1.rules.map advanceIfBatch, tracked := [], dest := lr.1.dest,
      copied := lr.1.copied, skipped := lr.1.skipped,
      copiedNames := lr.1.copiedNames, ok := true }
  else
    { rules := lr.1.rules, tracked := tracked, dest := lr.1.dest,
      copied := lr.1.copied, skipped := lr.1.skipped,
      copiedNames := lr.1.copiedNames, ok := false }

/-- The accumulator loop of `has_any_conflicts`: collect each file's preview
full name (preview base name plus the file's extension) and report a conflict
as soon as a name repeats. -/
def hacLoop (pattern : Str) (rules : List Rule) (total : Nat) :
    List Str → Nat → List TFile → Bool
  | _, _, [] => false
  | acc, i, f :: fs =>
    let full := (generate_filename_preview i total pattern rules).1 ++ f.ext
    if full ∈ acc then true else hacLoop pattern rules total (acc ++ [full]) (i + 1) fs

/-- Embedding of `has_any_conflicts`: blocking intra-batch duplicate detection
over the preview names.  The destination folder plays no part in it. -/
def has_any_conflicts (pattern : Str) (rules : List Rule) (files : List TFile) : Bool :=
  if files = [] then false else hacLoop pattern rules files.length [] 0 files

/-- The copy-button state computed in `update_button_states`: enabled only
with tracked files, a valid destination, and no blocking conflicts. -/
def copy_rename_enabled (pattern : Str) (rules : List Rule) (files : List TFile)
    (has_dest : Bool) : Bool :=
  decide (files.length > 0) && has_dest && !has_any_conflicts pattern rules files

/-- Preview full name (base name plus extension) of the file at index `i`. -/
def previewFullName (pattern : Str) (rules : List Rule) (total i : Nat) (f : TFile) : Str :=
  (generate_filename_preview i total pattern rules).1 ++ f.ext

theorem Rule.get_value_args (r : Rule) (fi tf fi' tf' : Nat) :
    r.get_value fi tf = r.get_value fi' tf' := by
  cases r <;> rfl

theorem generate_filename_args (fi tf fi' tf' : Nat) :
    ∀ (rs : List Rule) (pattern : Str),
      generate_filename fi tf pattern rs = generate_filename fi' tf' pattern rs := by
  intro rs
  induction rs with
  | nil => intro pattern; rfl
  | cons r rs ih =>
    intro pattern
    simp only [generate_filename, Rule.get_value_args r fi tf fi' tf', ih]

/-- C2: `Counter.valueAt` returns the string of the pre-advance `currentValue`,
increments the call count, and exactly on multiples of `step` adds `increment`
and hard-resets to `startValue` when the new value exceeds `maxValue`; the two
concrete sequences of the spec follow.  (`0 < step` reflects the data-model
invariant; Python would raise on `step = 0`.) -/
theorem counter_get_value_spec (r : CounterRule) (fi tf : Nat) (h : 0 < r.step) :
    r.get_value fi tf =
      (intStr r.current_value,
       { r with
         operation_count := r.operation_count + 1
         current_value :=
           if (r.operation_count + 1) % r.step = 0 then
             match r.max_value with
             | some m =>
               if r.current_value + r.increment > m then r.start_value
               else r.current_value + r.increment
             | none => r.current_value + r.increment
           else r.current_value }) ∧
    CounterRule.valueSeq ⟨['c'], 0, 3, 1, some 7, 0, 0⟩ 6 =
      [['0'], ['3'], ['6'], ['0'], ['3'], ['6']] ∧
    CounterRule.valueSeq ⟨['c'], 0, 1, 3, none, 0, 0⟩ 6 =
      [['0'], ['0'], ['0'], ['1'], ['1'], ['1']] :=
  ⟨rfl, by decide, by decide⟩

theorem counter_get_value_spec_witness :
    0 < (1 : Nat) ∧
    ((⟨['c'], 0, 3, 1, some 7, 0, 0⟩ : CounterRule).get_value 0 0 =
      (intStr 0,
       { (⟨['c'], 0, 3, 1, some 7, 0, 0⟩ : CounterRule) with
         operation_count := 0 + 1
         current_value :=
           if (0 + 1) % 1 = 0 then
             match (some 7 : Option Int) with
             | some m => if (0 : Int) + 3 > m then 0 else (0 : Int) + 3
             | none => (0 : Int) + 3
           else 0 }) ∧
     CounterRule.valueSeq ⟨['c'], 0, 3, 1, some 7, 0, 0⟩ 6 =
       [['0'], ['3'], ['6'], ['0'], ['3'], ['6']] ∧
     CounterRule.valueSeq ⟨['c'], 0, 1, 3, none, 0, 0⟩ 6 =
       [['0'], ['0'], ['0'], ['1'], ['1'], ['1']]) :=
  ⟨by decide, counter_get_value_spec ⟨['c'], 0, 3, 1, some 7, 0, 0⟩ 0 0 (by decide)⟩

/-- C8: `List.valueAt` returns `""` on an empty value list (in every state),
otherwise reads `values[currentIndex mod len(values)]`, increments the call
count and advances `currentIndex` (unwrapped) exactly on multiples of `step`;
the concrete `a,a,b,b` sequence of the spec follows. -/
theorem list_get_value_spec (r : ListRule) (fi tf : Nat) (hs : 0 < r.step) :
    (r.values = [] → r.get_value fi tf = ([], r)) ∧
    (r.values ≠ [] →
      r.get_value fi tf =
        (r.values.getD (r.current_index % r.values.length) [],
         { r with
           operation_count := r.operation_count + 1
           current_index :=
             if (r.operation_count + 1) % r.step = 0 then r.current_index + 1
             else r.current_index })) ∧
    ListRule.valueSeq ⟨['l'], [['a'], ['b']], 2, 0, 0⟩ 4 =
      [['a'], ['a'], ['b'], ['b']] := by
  refine ⟨fun h => ?_, fun h => ?_, by decide⟩
  · rw [ListRule.get_value, if_pos h]
  · rw [ListRule.get_value, if_neg h]

theorem list_get_value_spec_witness :
    0 < (2 : Nat) ∧
    (((⟨['l'], [['a'], ['b']], 2, 0, 0⟩ : ListRule).values = [] →
        (⟨['l'], [['a'], ['b']], 2, 0, 0⟩ : ListRule).get_value 0 0 =
          ([], ⟨['l'], [['a'], ['b']], 2, 0, 0⟩)) ∧
     ((⟨['l'], [['a'], ['b']], 2, 0, 0⟩ : ListRule).values ≠ [] →
        (⟨['l'], [['a'], ['b']], 2, 0, 0⟩ : ListRule).get_value 0 0 =
          (([['a'], ['b']] : List Str).getD (0 % ([['a'], ['b']] : List Str).length) [],
           { (⟨['l'], [['a'], ['b']], 2, 0, 0⟩ : ListRule) with
             operation_count := 0 + 1
             current_index := if (0 + 1) % 2 = 0 then 0 + 1 else 0 })) ∧
     ListRule.valueSeq ⟨['l'], [['a'], ['b']], 2, 0, 0⟩ 4 =
       [['a'], ['a'], ['b'], ['b']]) :=
  ⟨by decide, list_get_value_spec ⟨['l'], [['a'], ['b']], 2, 0, 0⟩ 0 0 (by decide)⟩

/-- C5: computing a preview never changes the real rules: the rule list that
`generate_filename_preview` hands back (Python mutates rules in place, so the
returned list is the post-call state of the real rules) is exactly the input —
every Counter's `current_value`/`operation_count`, every List's
`current_index`/`operation_count` and every Batch's
`current_value`/`batch_count` are left as they were; only the disposable
`_create_temp_rule_copy` copies are stepped. -/
theorem preview_is_side_effect_free (fi tf : Nat) (pattern : Str) (rules : List Rule) :
    (generate_filename_preview fi tf pattern rules).2 = rules := by
  induction rules generalizing pattern with
  | nil => rfl
  | cons r rs ih =>
    rw [generate_filename_preview]
    by_cases h : containsSub pattern (tagOf r) = true
    · rw [if_pos h]
      simpa using ih _
    · rw [if_neg h]
      simpa using ih _

/-- C9: serialize/deserialize round trip.  For a RuleSet with one rule of each
variant (Counter and List in construction state, which is what serializing a
set of constructed rules snapshots — their dicts carry constructor fields
only), deserialization reproduces the rules exactly, so the `valueAt`
sequences agree for 10 calls; a Batch snapshot additionally carries and
restores `current_value` and `batch_count`, whatever they are; and the loader
defaults a missing `step` to 1 and a missing `max_value` to absent. -/
theorem serialization_round_trip_spec (c : CounterRule) (l : ListRule) (b : BatchRule)
    (hc₁ : c.current_value = c.start_value) (hc₂ : c.operation_count = 0)
    (hl₁ : l.current_index = 0) (hl₂ : l.operation_count = 0) :
    CounterRule.from_dict c.to_dict = c ∧
    ListRule.from_dict l.to_dict = l ∧
    BatchRule.from_dict b.to_dict = b ∧
    ([Rule.counter c, Rule.list l, Rule.batch b].map
        (fun r => Rule.valueSeq (Rule.from_dict r.to_dict) 10)) =
      ([Rule.counter c, Rule.list l, Rule.batch b].map (fun r => Rule.valueSeq r 10)) ∧
    (∀ d : CounterDict,
      CounterRule.from_dict { d with step := none } =
      CounterRule.from_dict { d with step := some 1 }) ∧
    (∀ d : ListDict,
      ListRule.from_dict { d with step := none } =
      ListRule.from_dict { d with step := some 1 }) ∧
    (∀ d : BatchDict,
      BatchRule.from_dict { d with step := none } =
      BatchRule.from_dict { d with step := some 1 }) ∧
    (∀ d : CounterDict, (CounterRule.from_dict { d with max_value := none }).max_value = none) ∧
    (∀ d : BatchDict, (BatchRule.from_dict { d with max_value := none }).max_value = none) := by
  obtain ⟨ct, cs, ci, cst, cm, ccv, coc⟩ := c
  obtain ⟨lt, lv, lst, lci, loc⟩ := l
  obtain ⟨bt, bs, bi, bst, bm, bcv, bbc⟩ := b
  simp only at hc₁ hc₂ hl₁ hl₂
  subst hc₁ hc₂ hl₁ hl₂
  refine ⟨rfl, rfl, rfl, rfl, fun d => rfl, fun d => rfl, fun d => rfl,
    fun d => rfl, fun d => rfl⟩

theorem serialization_round_trip_spec_witness :
    ((⟨['c'], 2, 3, 2, some 9, 2, 0⟩ : CounterRule).current_value =
        (⟨['c'], 2, 3, 2, some 9, 2, 0⟩ : CounterRule).start_value) ∧
    ((⟨['c'], 2, 3, 2, some 9, 2, 0⟩ : CounterRule).operation_count = 0) ∧
    ((⟨['l'], [['a'], ['b']], 1, 0, 0⟩ : ListRule).current_index = 0) ∧
    ((⟨['l'], [['a'], ['b']], 1, 0, 0⟩ : ListRule).operation_count = 0) ∧
    (CounterRule.from_dict (CounterRule.to_dict ⟨['c'], 2, 3, 2, some 9, 2, 0⟩) =
        ⟨['c'], 2, 3, 2, some 9, 2, 0⟩ ∧
     ListRule.from_dict (ListRule.to_dict ⟨['l'], [['a'], ['b']], 1, 0, 0⟩) =
        ⟨['l'], [['a'], ['b']], 1, 0, 0⟩ ∧
     BatchRule.from_dict (BatchRule.to_dict ⟨['b'], 0, 1, 1, none, 5, 7⟩) =
        ⟨['b'], 0, 1, 1, none, 5, 7⟩ ∧
     ([Rule.counter ⟨['c'], 2, 3, 2, some 9, 2, 0⟩,
       Rule.list ⟨['l'], [['a'], ['b']], 1, 0, 0⟩,
       Rule.batch ⟨['b'], 0, 1, 1, none, 5, 7⟩].map
          (fun r => Rule.valueSeq (Rule.from_dict r.to_dict) 10)) =
       ([Rule.counter ⟨['c'], 2, 3, 2, some 9, 2, 0⟩,
         Rule.list ⟨['l'], [['a'], ['b']], 1, 0, 0⟩,
         Rule.batch ⟨['b'], 0, 1, 1, none, 5, 7⟩].map (fun r => Rule.valueSeq r 10)) ∧
     (∀ d : CounterDict,
       CounterRule.from_dict { d with step := none } =
       CounterRule.from_dict { d with step := some 1 }) ∧
     (∀ d : ListDict,
       ListRule.from_dict { d with step := none } =
       ListRule.from_dict { d with step := some 1 }) ∧
     (∀ d : BatchDict,
       BatchRule.from_dict { d with step := none } =
       BatchRule.from_dict { d with step := some 1 }) ∧
     (∀ d : CounterDict,
       (CounterRule.from_dict { d with max_value := none }).max_value = none) ∧
     (∀ d : BatchDict,
       (BatchRule.from_dict { d with max_value := none }).max_value = none)) :=
  ⟨by decide, by decide, by decide, by decide,
   serialization_round_trip_spec ⟨['c'], 2, 3, 2, some 9, 2, 0⟩
     ⟨['l'], [['a'], ['b']], 1, 0, 0⟩ ⟨['b'], 0, 1, 1, none, 5, 7⟩
     (by decide) (by decide) (by decide) (by decide)⟩

theorem generate_filename_batch (fi tf : Nat) (b : BatchRule) :
    ∀ (rs : List Rule) (pattern : Str) (k : Nat), rs.get? k = some (.batch b) →
      ((generate_filename fi tf pattern rs).2).get? k = some (.batch b) := by
  intro rs
  induction rs with
  | nil => intro pattern k h; simp at h
  | cons r rs ih =>
    intro pattern k h
    rw [generate_filename]
    by_cases hc : containsSub pattern (tagOf r) = true
    · rw [if_pos hc]
      cases k with
      | zero =>
        simp only [List.get?_cons_zero, Option.some.injEq] at h
        subst h
        rfl
      | succ k =>
        simp only [List.get?_cons_succ] at h ⊢
        exact ih _ _ h
    · rw [if_neg hc]
      cases k with
      | zero => simpa using h
      | succ k =>
        simp only [List.get?_cons_succ] at h ⊢
        exact ih _ _ h

theorem copyStep_rules (path : Str) (f : TFile) (st : CommitSt) :
    ((copyStep path f st).1).rules = st.rules := by
  rw [copyStep]
  by_cases h : f.copy_ok = true
  · rw [if_pos h]
  · rw [if_neg h]

theorem commitLoopC_batch (pattern : Str) (total : Nat) (action : FileAction)
    (b : BatchRule) :
    ∀ (fs : List TFile) (i : Nat) (st : CommitSt) (k : Nat),
      st.rules.get? k = some (.batch b) →
      (((commitLoopC pattern total action i fs st).1).rules).get? k = some (.batch b) := by
  intro fs
  induction fs with
  | nil => intro i st k h; exact h
  | cons f fs ih =>
    intro i st k h
    rw [commitLoopC]
    by_cases hex : f.still_exists = true
    · rw [if_pos hex]
      have hg : ((generate_filename i total pattern st.rules).2).get? k = some (.batch b) :=
        generate_filename_batch i total b st.rules pattern k h
      by_cases hdp : (generate_filename i total pattern st.rules).1 ++ f.ext ∈ st.dest
      · simp only [if_pos hdp]
        cases action with
        | ignore => exact ih _ _ _ hg
        | rename =>
          by_cases hok : f.copy_ok = true
          · simp only [copyStep, if_pos hok]
            exact ih _ _ _ hg
          · simp only [copyStep, if_neg hok]
            simpa using hg
        | overwrite =>
          by_cases hok : f.copy_ok = true
          · simp only [copyStep, if_pos hok]
            exact ih _ _ _ hg
          · simp only [copyStep, if_neg hok]
            simpa using hg
      · simp only [if_neg hdp]
        by_cases hok : f.copy_ok = true
        · simp only [copyStep, if_pos hok]
          exact ih _ _ _ hg
        · simp only [copyStep, if_neg hok]
          simpa using hg
    · rw [if_neg hex]
      exact ih _ _ _ h

theorem copyStep_no_rollback (path : Str) (f : TFile) (st : CommitSt)
    (h : ∀ x ∈ st.copiedNames, x ∈ st.dest) :
    ∀ x ∈ ((copyStep path f st).1).copiedNames, x ∈ ((copyStep path f st).1).dest := by
  rw [copyStep]
  by_cases hok : f.copy_ok = true
  · rw [if_pos hok]
    intro x hx
    simp only [List.mem_append, List.mem_singleton] at hx
    rcases hx with hx | hx
    · have := h x hx
      by_cases hp : path ∈ st.dest
      · simpa [hp] using this
      · simp only [if_neg hp, List.mem_append]
        exact Or.inl this
    · subst hx
      by_cases hp : x ∈ st.dest
      · simp [hp]
      · simp [if_neg hp]
  · rw [if_neg hok]
    exact h

theorem commitLoopC_no_rollback (pattern : Str) (total : Nat) (action : FileAction) :
    ∀ (fs : List TFile) (i : Nat) (st : CommitSt),
      (∀ x ∈ st.copiedNames, x ∈ st.dest) →
      ∀ x ∈ (((commitLoopC pattern total action i fs st).1).copiedNames),
        x ∈ (((commitLoopC pattern total action i fs st).1).dest) := by
  intro fs
  induction fs with
  | nil => intro i st h; exact h
  | cons f fs ih =>
    intro i st h
    rw [commitLoopC]
    by_cases hex : f.still_exists = true
    · rw [if_pos hex]
      by_cases hdp : (generate_filename i total pattern st.rules).1 ++ f.ext ∈ st.dest
      · simp only [if_pos hdp]
        cases action with
        | ignore => exact ih _ _ h
        | rename =>
          by_cases hok : f.copy_ok = true
          · simp only [copyStep, if_pos hok]
            refine ih _ _ ?_
            exact copyStep_no_rollback _ ⟨f.ext, f.still_exists, true⟩ _ h
          · simp only [copyStep, if_neg hok]
            exact h
        | overwrite =>
          by_cases hok : f.copy_ok = true
          · simp only [copyStep, if_pos hok]
            refine ih _ _ ?_
            exact copyStep_no_rollback _ ⟨f.ext, f.still_exists, true⟩ _ h
          · simp only [copyStep, if_neg hok]
            exact h
      · simp only [if_neg hdp]
        by_cases hok : f.copy_ok = true
        · simp only [copyStep, if_pos hok]
          refine ih _ _ ?_
          exact copyStep_no_rollback _ ⟨f.ext, f.still_exists, true⟩ _ h
        · simp only [copyStep, if_neg hok]
          exact h
    · rw [if_neg hex]
      exact ih _ _ h

/-- C3: `reset` restores Counter state (`current_value := start_value`,
`operation_count := 0`) and List state (`current_index := 0`,
`operation_count := 0`) but is a no-op on Batch; Batch `get_value` mutates
nothing and returns the same `str(current_value)` at every call, so a Batch
rule's state — hence the value every file of a commit pass observes — is
unchanged by an entire commit-loop run, and only `increment_batch` (invoked
by `advanceIfBatch` after the loop) changes it. -/
theorem reset_semantics_spec (pattern : Str) (total : Nat) (action : FileAction)
    (i : Nat) (fs : List TFile) (st : CommitSt) (k : Nat) (b : BatchRule)
    (hb : st.rules.get? k = some (.batch b)) :
    (∀ r : CounterRule, r.reset = { r with current_value := r.start_value, operation_count := 0 }) ∧
    (∀ r : ListRule, r.reset = { r with current_index := 0, operation_count := 0 }) ∧
    (∀ r : BatchRule, r.reset = r) ∧
    (∀ (r : BatchRule) (fi tf : Nat), r.get_value fi tf = (intStr r.current_value, r)) ∧
    (((commitLoopC pattern total action i fs st).1).rules).get? k = some (.batch b) :=
  ⟨fun _ => rfl, fun _ => rfl, fun _ => rfl, fun _ _ _ => rfl,
   commitLoopC_batch pattern total action b fs i st k hb⟩

theorem reset_semantics_spec_witness :
    ((⟨[Rule.batch ⟨['b'], 0, 1, 1, none, 4, 2⟩], [], 0, 0, [], []⟩ : CommitSt).rules.get? 0 =
        some (.batch ⟨['b'], 0, 1, 1, none, 4, 2⟩)) ∧
    ((∀ r : CounterRule,
        r.reset = { r with current_value := r.start_value, operation_count := 0 }) ∧
     (∀ r : ListRule, r.reset = { r with current_index := 0, operation_count := 0 }) ∧
     (∀ r : BatchRule, r.reset = r) ∧
     (∀ (r : BatchRule) (fi tf : Nat), r.get_value fi tf = (intStr r.current_value, r)) ∧
     (((commitLoopC ('x' :: ['{', 'b', '}']) 2 FileAction.overwrite 0
          [⟨['.', 't'], true, true⟩, ⟨['.', 't'], true, true⟩]
          ⟨[Rule.batch ⟨['b'], 0, 1, 1, none, 4, 2⟩], [], 0, 0, [], []⟩).1).rules).get? 0 =
        some (.batch ⟨['b'], 0, 1, 1, none, 4, 2⟩)) :=
  ⟨by decide,
   reset_semantics_spec ('x' :: ['{', 'b', '}']) 2 FileAction.overwrite 0
     [⟨['.', 't'], true, true⟩, ⟨['.', 't'], true, true⟩]
     ⟨[Rule.batch ⟨['b'], 0, 1, 1, none, 4, 2⟩], [], 0, 0, [], []⟩ 0
     ⟨['b'], 0, 1, 1, none, 4, 2⟩ (by decide)⟩

/-- C10: the commit loop consumes no rule values for a tracked file that no
longer exists on disk — the whole pass over the tracked list is identical (in
generated names, rule states, destination contents and counters) to a pass
over just the still-existing files, whatever call ordinal it starts from, so
each later existing file receives exactly the Counter/List values the vanished
file would have received (shifting the names relative to a preview computed
while it was still listed). -/
theorem commit_skips_missing_files (pattern : Str) (total total' : Nat)
    (action : FileAction) (i i' : Nat) (tracked : List TFile) (st : CommitSt) :
    commitLoopC pattern total action i tracked st =
      commitLoopC pattern total' action i' (tracked.filter fun f => f.still_exists) st := by
  induction tracked generalizing i i' st with
  | nil => rfl
  | cons f fs ih =>
    by_cases hex : f.still_exists = true
    · rw [List.filter_cons_of_pos hex]
      rw [commitLoopC, commitLoopC, if_pos hex, if_pos hex]
      rw [generate_filename_args i total i' total' st.rules pattern]
      cases action with
      | ignore =>
        by_cases hdp : (generate_filename i' total' pattern st.rules).1 ++ f.ext ∈ st.dest
        · simp only [if_pos hdp]
          exact ih _ _ _
        · simp only [if_neg hdp]
          by_cases hok : f.copy_ok = true
          · simp only [copyStep, if_pos hok]
            exact ih _ _ _
          · simp only [copyStep, if_neg hok]
            rfl
      | rename =>
        by_cases hdp : (generate_filename i' total' pattern st.rules).1 ++ f.ext ∈ st.dest
        · simp only [if_pos hdp]
          by_cases hok : f.copy_ok = true
          · simp only [copyStep, if_pos hok]
            exact ih _ _ _
          · simp only [copyStep, if_neg hok]
            rfl
        · simp only [if_neg hdp]
          by_cases hok : f.copy_ok = true
          · simp only [copyStep, if_pos hok]
            exact ih _ _ _
          · simp only [copyStep, if_neg hok]
            rfl
      | overwrite =>
        by_cases hdp : (generate_filename i' total' pattern st.rules).1 ++ f.ext ∈ st.dest
        · simp only [if_pos hdp]
          by_cases hok : f.copy_ok = true
          · simp only [copyStep, if_pos hok]
            exact ih _ _ _
          · simp only [copyStep, if_neg hok]
            rfl
        · simp only [if_neg hdp]
          by_cases hok : f.copy_ok = true
          · simp only [copyStep, if_pos hok]
            exact ih _ _ _
          · simp only [copyStep, if_neg hok]
            rfl
    · have hex' : f.still_exists = false := by
        cases hse : f.still_exists
        · rfl
        · exact absurd hse hex
      rw [List.filter_cons_of_neg (by simp [hex'])]
      rw [commitLoopC, if_neg (by simp [hex'])]
      exact ih _ _ _

/-- C6: whenever the commit pass completes (no copy raised — skipped and
vanished files included), every Batch rule is advanced by exactly one
`increment_batch` (its batch count grows by 1 however many files were
processed) after the iteration, and the tracked-file list is cleared; and in
every outcome, completed or aborted, every file name actually copied is still
present in the destination — nothing is rolled back. -/
theorem commit_advances_batch_once_then_clears (pattern : Str) (action : FileAction)
    (tracked : List TFile) (rules : List Rule) (dest : List Str) (k : Nat) (b : BatchRule)
    (hb : rules.get? k = some (.batch b)) :
    ((copy_and_rename_run pattern action tracked rules dest).ok = true →
      (copy_and_rename_run pattern action tracked rules dest).tracked = []) ∧
    ((copy_and_rename_run pattern action tracked rules dest).ok = true →
      (copy_and_rename_run pattern action tracked rules dest).rules.get? k =
        some (.batch b.increment_batch)) ∧
    (b.increment_batch).batch_count = b.batch_count + 1 ∧
    (copy_and_rename_run pattern action tracked rules dest).copiedNames ⊆
      (copy_and_rename_run pattern action tracked rules dest).dest := by
  have hb' : (rules.map Rule.reset).get? k = some (.batch b) := by
    rw [List.get?_map, hb]; rfl
  have hloop := commitLoopC_batch pattern tracked.length action b tracked 0
    ⟨rules.map Rule.reset, dest, 0, 0, [], []⟩ k hb'
  have hnr := commitLoopC_no_rollback pattern tracked.length action tracked 0
    ⟨rules.map Rule.reset, dest, 0, 0, [], []⟩ (by intro x hx; simp at hx)
  unfold copy_and_rename_run
  by_cases hok : (commitLoopC pattern tracked.length action 0 tracked
      ⟨rules.map Rule.reset, dest, 0, 0, [], []⟩).2 = true
  · rw [if_pos hok]
    refine ⟨fun _ => rfl, fun _ => ?_, rfl, fun x hx => hnr x hx⟩
    show ((commitLoopC pattern tracked.length action 0 tracked
        ⟨rules.map Rule.reset, dest, 0, 0, [], []⟩).1.rules.map advanceIfBatch).get? k = _
    rw [List.get?_map, hloop]
    rfl
  · rw [if_neg hok]
    refine ⟨fun h => absurd h (by simp), fun h => absurd h (by simp), rfl,
      fun x hx => hnr x hx⟩

theorem commit_advances_batch_once_then_clears_witness :
    (([Rule.batch ⟨['b'], 0, 1, 1, none, 4, 2⟩] : List Rule).get? 0 =
        some (.batch ⟨['b'], 0, 1, 1, none, 4, 2⟩)) ∧
    (((copy_and_rename_run ('{' :: 'b' :: ['}']) FileAction.overwrite
          [⟨['.', 't'], true, true⟩, ⟨['.', 'u'], false, true⟩]
          [Rule.batch ⟨['b'], 0, 1, 1, none, 4, 2⟩] []).ok = true →
        (copy_and_rename_run ('{' :: 'b' :: ['}']) FileAction.overwrite
          [⟨['.', 't'], true, true⟩, ⟨['.', 'u'], false, true⟩]
          [Rule.batch ⟨['b'], 0, 1, 1, none, 4, 2⟩] []).tracked = []) ∧
     ((copy_and_rename_run ('{' :: 'b' :: ['}']) FileAction.overwrite
          [⟨['.', 't'], true, true⟩, ⟨['.', 'u'], false, true⟩]
          [Rule.batch ⟨['b'], 0, 1, 1, none, 4, 2⟩] []).ok = true →
        (copy_and_rename_run ('{' :: 'b' :: ['}']) FileAction.overwrite
          [⟨['.', 't'], true, true⟩, ⟨['.', 'u'], false, true⟩]
          [Rule.batch ⟨['b'], 0, 1, 1, none, 4, 2⟩] []).rules.get? 0 =
          some (.batch (BatchRule.increment_batch ⟨['b'], 0, 1, 1, none, 4, 2⟩))) ∧
     (BatchRule.increment_batch ⟨['b'], 0, 1, 1, none, 4, 2⟩).batch_count = 2 + 1 ∧
     (copy_and_rename_run ('{' :: 'b' :: ['}']) FileAction.overwrite
        [⟨['.', 't'], true, true⟩, ⟨['.', 'u'], false, true⟩]
        [Rule.batch ⟨['b'], 0, 1, 1, none, 4, 2⟩] []).copiedNames ⊆
       (copy_and_rename_run ('{' :: 'b' :: ['}']) FileAction.overwrite
          [⟨['.', 't'], true, true⟩, ⟨['.', 'u'], false, true⟩]
          [Rule.batch ⟨['b'], 0, 1, 1, none, 4, 2⟩] []).dest) :=
  ⟨by decide,
   commit_advances_batch_once_then_clears ('{' :: 'b' :: ['}']) FileAction.overwrite
     [⟨['.', 't'], true, true⟩, ⟨['.', 'u'], false, true⟩]
     [Rule.batch ⟨['b'], 0, 1, 1, none, 4, 2⟩] [] 0 ⟨['b'], 0, 1, 1, none, 4, 2⟩
     (by decide)⟩

/-- The sequence of preview full names that `has_any_conflicts` inspects,
starting at file index `i`. -/
def previewNamesFrom (pattern : Str) (rules : List Rule) (total : Nat) :
    Nat → List TFile → List Str
  | _, [] => []
  | i, f :: fs =>
    ((generate_filename_preview i total pattern rules).1 ++ f.ext) ::
      previewNamesFrom pattern rules total (i + 1) fs

theorem previewNamesFrom_length (pattern : Str) (rules : List Rule) (total : Nat) :
    ∀ (fs : List TFile) (i : Nat),
      (previewNamesFrom pattern rules total i fs).length = fs.length := by
  intro fs
  induction fs with
  | nil => intro i; rfl
  | cons f fs ih => intro i; simp [previewNamesFrom, ih]

theorem previewNamesFrom_get? (pattern : Str) (rules : List Rule) (total : Nat) :
    ∀ (fs : List TFile) (i k : Nat),
      (previewNamesFrom pattern rules total i fs).get? k =
        (fs.get? k).map
          (fun f => (generate_filename_preview (i + k) total pattern rules).1 ++ f.ext) := by
  intro fs
  induction fs with
  | nil => intro i k; simp [previewNamesFrom]
  | cons f fs ih =>
    intro i k
    cases k with
    | zero => simp [previewNamesFrom]
    | succ k =>
      simp only [previewNamesFrom, List.get?_cons_succ, ih (i + 1) k]
      have harith : i + 1 + k = i + (k + 1) := by omega
      rw [harith]

theorem hacLoop_complete (pattern : Str) (rules : List Rule) (total : Nat) :
    ∀ (fs : List TFile) (acc : List Str) (i : Nat),
      ((∃ x ∈ acc, x ∈ previewNamesFrom pattern rules total i fs) ∨
        ¬(previewNamesFrom pattern rules total i fs).Nodup) →
      hacLoop pattern rules total acc i fs = true := by
  intro fs
  induction fs with
  | nil =>
    intro acc i h
    rcases h with ⟨x, _, hx⟩ | h
    · simp [previewNamesFrom] at hx
    · simp [previewNamesFrom] at h
  | cons f fs ih =>
    intro acc i h
    rw [hacLoop]
    by_cases hm : (generate_filename_preview i total pattern rules).1 ++ f.ext ∈ acc
    · rw [if_pos hm]
    · rw [if_neg hm]
      apply ih
      rcases h with ⟨x, hxa, hxn⟩ | h
      · simp only [previewNamesFrom, List.mem_cons] at hxn
        rcases hxn with hxf | hxn
        · subst hxf
          exact absurd hxa hm
        · exact Or.inl ⟨x, List.mem_append_left _ hxa, hxn⟩
      · simp only [previewNamesFrom, List.nodup_cons, not_and_or] at h
        rcases h with h | h
        · push_neg at h
          exact Or.inl ⟨_, List.mem_append_right _ (List.mem_singleton.mpr rfl), h⟩
        · exact Or.inr h

/-- C7: if any two tracked files generate the identical preview full name
(base name plus extension), then `has_any_conflicts` reports a blocking
conflict and the copy/commit button is disabled — for every destination state
(`has_any_conflicts` never looks at the destination, and the conflict alone
forces the button off whatever `has_dest` is). -/
theorem duplicate_names_disable_commit (pattern : Str) (rules : List Rule)
    (files : List TFile) (has_dest : Bool) (i j : Nat) (hij : i < j)
    (hj : j < files.length)
    (hdup : previewFullName pattern rules files.length i
              (files.get ⟨i, lt_trans hij hj⟩) =
            previewFullName pattern rules files.length j (files.get ⟨j, hj⟩)) :
    has_any_conflicts pattern rules files = true ∧
    copy_rename_enabled pattern rules files has_dest = false := by
  have hne : files ≠ [] := by
    intro h
    subst h
    simp at hj
  have hconf : has_any_conflicts pattern rules files = true := by
    rw [has_any_conflicts, if_neg hne]
    apply hacLoop_complete
    refine Or.inr fun hnd => ?_
    have hgi : (previewNamesFrom pattern rules files.length 0 files).get? i =
        some (previewFullName pattern rules files.length i
          (files.get ⟨i, lt_trans hij hj⟩)) := by
      rw [previewNamesFrom_get? pattern rules files.length files 0 i]
      rw [List.get?_eq_get (lt_trans hij hj)]
      simp [previewFullName]
    have hgj : (previewNamesFrom pattern rules files.length 0 files).get? j =
        some (previewFullName pattern rules files.length j (files.get ⟨j, hj⟩)) := by
      rw [previewNamesFrom_get? pattern rules files.length files 0 j]
      rw [List.get?_eq_get hj]
      simp [previewFullName]
    have heq : (previewNamesFrom pattern rules files.length 0 files).get? i =
        (previewNamesFrom pattern rules files.length 0 files).get? j := by
      rw [hgi, hgj, hdup]
    have hlen : i < (previewNamesFrom pattern rules files.length 0 files).length := by
      rw [previewNamesFrom_length]
      exact lt_trans hij hj
    exact absurd (List.get?_inj hlen hnd heq) (Nat.ne_of_lt hij)
  refine ⟨hconf, ?_⟩
  rw [copy_rename_enabled, hconf]
  simp

theorem duplicate_names_disable_commit_witness :
    0 < 1 ∧ (1 : Nat) < ([⟨['.', 't'], true, true⟩, ⟨['.', 't'], true, true⟩] : List TFile).length ∧
    (previewFullName ['n'] [] 2 0
        (([⟨['.', 't'], true, true⟩, ⟨['.', 't'], true, true⟩] : List TFile).get ⟨0, by decide⟩) =
      previewFullName ['n'] [] 2 1
        (([⟨['.', 't'], true, true⟩, ⟨['.', 't'], true, true⟩] : List TFile).get ⟨1, by decide⟩)) ∧
    (has_any_conflicts ['n'] [] [⟨['.', 't'], true, true⟩, ⟨['.', 't'], true, true⟩] = true ∧
     copy_rename_enabled ['n'] [] [⟨['.', 't'], true, true⟩, ⟨['.', 't'], true, true⟩] true = false) :=
  ⟨by decide, by decide, by decide,
   duplicate_names_disable_commit ['n'] [] [⟨['.', 't'], true, true⟩, ⟨['.', 't'], true, true⟩]
     true 0 1 (by decide) (by decide) (by decide)⟩

/-- A string containing neither `'{'` nor `'}'`. -/
def braceFree (s : Str) : Bool := s.all fun c => !(c == '{') && !(c == '}')

theorem braceFree_iff (s : Str) :
    braceFree s = true ↔ ∀ c ∈ s, c ≠ '{' ∧ c ≠ '}' := by
  rw [braceFree, List.all_eq_true]
  constructor
  · intro h c hc
    have := h c hc
    simp only [Bool.and_eq_true, Bool.not_eq_true', beq_eq_false_iff_ne] at this
    exact this
  · intro h c hc
    have := h c hc
    simp only [Bool.and_eq_true, Bool.not_eq_true', beq_eq_false_iff_ne]
    exact this

theorem braceFree_append (u v : Str) :
    braceFree (u ++ v) = (braceFree u && braceFree v) := by
  simp [braceFree, List.all_append]

theorem digitCh_cases (n : Nat) :
    digitCh n = '0' ∨ digitCh n = '1' ∨ digitCh n = '2' ∨ digitCh n = '3' ∨
    digitCh n = '4' ∨ digitCh n = '5' ∨ digitCh n = '6' ∨ digitCh n = '7' ∨
    digitCh n = '8' ∨ digitCh n = '9' := by
  unfold digitCh
  split_ifs <;> simp

theorem digitCh_braceFree (n : Nat) : braceFree [digitCh n] = true := by
  rcases digitCh_cases n with h | h | h | h | h | h | h | h | h | h <;> rw [h] <;> decide

theorem natDigits_braceFree : ∀ (fuel n : Nat), braceFree (natDigits fuel n) = true := by
  intro fuel
  induction fuel with
  | zero => intro n; rfl
  | succ fuel ih =>
    intro n
    rw [natDigits]
    by_cases h : n < 10
    · rw [if_pos h]
      exact digitCh_braceFree n
    · rw [if_neg h]
      rw [braceFree_append, ih, Bool.true_and]
      exact digitCh_braceFree (n % 10)

theorem intStr_braceFree (i : Int) : braceFree (intStr i) = true := by
  rw [intStr]
  by_cases h : i < 0
  · rw [if_pos h]
    have h1 : braceFree ('-' :: natStr i.natAbs) =
        ((!('-' == '{') && !('-' == '}')) && braceFree (natStr i.natAbs)) := by
      simp [braceFree]
    rw [h1, natStr, natDigits_braceFree]
    decide
  · rw [if_neg h]
    exact natDigits_braceFree _ _

theorem containsSub_skip (a : Char) (pt w : Str) :
    ∀ u : Str, (∀ c ∈ u, c ≠ a) →
      containsSub (u ++ w) (a :: pt) = containsSub w (a :: pt) := by
  intro u
  induction u with
  | nil => intro _; rfl
  | cons c u ih =>
    intro h
    have hc : c ≠ a := h c (List.mem_cons_self c u)
    show (((a :: pt).isPrefixOf (c :: (u ++ w))) || containsSub (u ++ w) (a :: pt)) = _
    have hpre : (a :: pt).isPrefixOf (c :: (u ++ w)) = false := by
      rw [List.isPrefixOf]
      simp [Ne.symm hc]
    rw [hpre, Bool.false_or]
    exact ih fun c hcu => h c (List.mem_cons_of_mem _ hcu)

theorem containsSub_append_right (pat w : Str) :
    ∀ u : Str, containsSub w pat = true → containsSub (u ++ w) pat = true := by
  intro u
  induction u with
  | nil => intro h; exact h
  | cons c u ih =>
    intro h
    show ((pat.isPrefixOf (c :: (u ++ w))) || containsSub (u ++ w) pat) = true
    rw [ih h, Bool.or_true]

theorem replaceAll_skip (a : Char) (pt rep w : Str) :
    ∀ u : Str, (∀ c ∈ u, c ≠ a) →
      replaceAll (u ++ w) (a :: pt) rep = u ++ replaceAll w (a :: pt) rep := by
  intro u
  induction u with
  | nil => intro _; rfl
  | cons c u ih =>
    intro h
    have hc : c ≠ a := h c (List.mem_cons_self c u)
    rw [List.cons_append, replaceAll_cons, if_neg]
    · rw [ih fun c hcu => h c (List.mem_cons_of_mem _ hcu)]
      rfl
    · rintro ⟨-, hp⟩
      rw [List.cons_prefix_cons] at hp
      exact hc hp.1.symm

theorem tokAux : ∀ (a b w : Str), braceFree a = true → braceFree b = true →
    (a ++ ['}'] <+: (b ++ ['}']) ++ w) → a = b := by
  intro a
  induction a with
  | nil =>
    intro b w _ hb hp
    cases b with
    | nil => rfl
    | cons d b' =>
      exfalso
      have hp' : ['}'] <+: d :: ((b' ++ ['}']) ++ w) := hp
      rw [List.cons_prefix_cons] at hp'
      have hd := (braceFree_iff _ |>.mp hb) d (List.mem_cons_self d b')
      exact hd.2 hp'.1.symm
  | cons c a' ih =>
    intro b w ha hb hp
    cases b with
    | nil =>
      exfalso
      have hp' : c :: (a' ++ ['}']) <+: '}' :: w := hp
      rw [List.cons_prefix_cons] at hp'
      have hc := (braceFree_iff _ |>.mp ha) c (List.mem_cons_self c a')
      exact hc.2 hp'.1
    | cons d b' =>
      have hp' : c :: (a' ++ ['}']) <+: d :: ((b' ++ ['}']) ++ w) := hp
      rw [List.cons_prefix_cons] at hp'
      have ha' : braceFree a' = true := by
        rw [braceFree_iff] at ha ⊢
        exact fun x hx => ha x (List.mem_cons_of_mem _ hx)
      have hb' : braceFree b' = true := by
        rw [braceFree_iff] at hb ⊢
        exact fun x hx => hb x (List.mem_cons_of_mem _ hx)
      rw [hp'.1, ih b' w ha' hb' hp'.2]

theorem tok_of_tok_pref {a b : Str} (w : Str) (ha : braceFree a = true)
    (hb : braceFree b = true) (hp : tagStr a <+: tagStr b ++ w) : a = b := by
  have hp' : '{' :: (a ++ ['}']) <+: '{' :: ((b ++ ['}']) ++ w) := hp
  rw [List.cons_prefix_cons] at hp'
  exact tokAux a b w ha hb hp'.2

/-- A piece of a well-formed naming pattern: brace-free literal text or a
placeholder `{name}` with a brace-free name.  This is not a new data structure
of the program — it only names the class of patterns (the spec's
`NamingPattern` with `{tagName}` placeholders) on which the preview/commit
equivalence is provable. -/
inductive Piece
  | lit : Str → Piece
  | tok : Str → Piece
  deriving DecidableEq

def Piece.render : Piece → Str
  | .lit s => s
  | .tok n => tagStr n

def renderP (ps : List Piece) : Str := (ps.map Piece.render).join

def Piece.good : Piece → Bool
  | .lit s => braceFree s
  | .tok n => braceFree n

def goodPieces (ps : List Piece) : Bool := ps.all Piece.good

theorem renderP_cons (p : Piece) (ps : List Piece) :
    renderP (p :: ps) = p.render ++ renderP ps := by
  simp [renderP]

theorem tagStr_eq (a : Str) : tagStr a = '{' :: (a ++ ['}']) := rfl

/-- Substituting a value for one placeholder, at the piece level. -/
def substPiece (a v : Str) : Piece → Piece
  | .lit s => .lit s
  | .tok b => if b = a then .lit v else .tok b

theorem containsSub_renderP (a : Str) (ha : braceFree a = true) :
    ∀ ps : List Piece, goodPieces ps = true →
      (containsSub (renderP ps) (tagStr a) = true ↔ Piece.tok a ∈ ps) := by
  intro ps
  induction ps with
  | nil =>
    intro _
    simp [renderP, containsSub, tagStr_eq]
  | cons p ps ih =>
    intro hg
    have hgp : Piece.good p = true ∧ goodPieces ps = true := by
      simpa [goodPieces] using hg
    cases p with
    | lit s =>
      have hs : ∀ c ∈ s, c ≠ '{' := fun c hc => ((braceFree_iff s).mp hgp.1 c hc).1
      rw [renderP_cons]
      show containsSub (s ++ renderP ps) (tagStr a) = true ↔ _
      rw [tagStr_eq, containsSub_skip '{' (a ++ ['}']) (renderP ps) s hs, ← tagStr_eq,
        ih hgp.2]
      simp
    | tok b =>
      have hbf : braceFree b = true := hgp.1
      by_cases hab : a = b
      · subst hab
        have hpre : (tagStr a).isPrefixOf (tagStr a ++ renderP ps) = true := by
          rw [ List.isPrefixOf_iff_prefix]
          exact List.prefix_append _ _
        have hcon : containsSub (tagStr a ++ renderP ps) (tagStr a) = true := by
          show ((tagStr a).isPrefixOf (tagStr a ++ renderP ps) ||
            containsSub ((a ++ ['}']) ++ renderP ps) (tagStr a)) = true
          rw [hpre, Bool.true_or]
        rw [renderP_cons]
        show containsSub (tagStr a ++ renderP ps) (tagStr a) = true ↔ _
        rw [hcon]
        simp
      · have hpre : (tagStr a).isPrefixOf (tagStr b ++ renderP ps) = false := by
          by_cases hpp : (tagStr a).isPrefixOf (tagStr b ++ renderP ps) = true
          · rw [ List.isPrefixOf_iff_prefix] at hpp
            exact absurd (tok_of_tok_pref _ ha hbf hpp) hab
          · exact Bool.eq_false_iff.mpr hpp
        have hbc : ∀ c ∈ b ++ ['}'], c ≠ '{' := by
          intro c hc
          rcases List.mem_append.mp hc with hc | hc
          · exact ((braceFree_iff b).mp hbf c hc).1
          · rw [List.mem_singleton] at hc
            subst hc
            decide
        rw [renderP_cons]
        show containsSub (tagStr b ++ renderP ps) (tagStr a) = true ↔ _
        have hstep : containsSub (tagStr b ++ renderP ps) (tagStr a) =
            containsSub ((b ++ ['}']) ++ renderP ps) (tagStr a) := by
          show ((tagStr a).isPrefixOf (tagStr b ++ renderP ps) ||
            containsSub ((b ++ ['}']) ++ renderP ps) (tagStr a)) = _
          rw [hpre, Bool.false_or]
        rw [hstep, tagStr_eq, containsSub_skip '{' (a ++ ['}']) (renderP ps) (b ++ ['}']) hbc,
          ← tagStr_eq, ih hgp.2]
        simp [hab]

theorem replaceAll_renderP (a rep : Str) (ha : braceFree a = true) :
    ∀ ps : List Piece, goodPieces ps = true →
      replaceAll (renderP ps) (tagStr a) rep = renderP (ps.map (substPiece a rep)) := by
  intro ps
  induction ps with
  | nil => intro _; rfl
  | cons p ps ih =>
    intro hg
    have hgp : Piece.good p = true ∧ goodPieces ps = true := by
      simpa [goodPieces] using hg
    cases p with
    | lit s =>
      have hs : ∀ c ∈ s, c ≠ '{' := fun c hc => ((braceFree_iff s).mp hgp.1 c hc).1
      rw [renderP_cons]
      show replaceAll (s ++ renderP ps) (tagStr a) rep = _
      rw [tagStr_eq, replaceAll_skip '{' (a ++ ['}']) rep (renderP ps) s hs, ← tagStr_eq,
        ih hgp.2]
      rw [List.map_cons, renderP_cons]
      rfl
    | tok b =>
      have hbf : braceFree b = true := hgp.1
      by_cases hab : b = a
      · subst hab
        rw [renderP_cons]
        show replaceAll (tagStr b ++ renderP ps) (tagStr b) rep = _
        have hshape : tagStr b ++ renderP ps = '{' :: ((b ++ ['}']) ++ renderP ps) := rfl
        rw [hshape, replaceAll_cons, if_pos]
        · have hdrop : ('{' :: ((b ++ ['}']) ++ renderP ps)).drop (tagStr b).length =
              renderP ps := by
            rw [← hshape]
            exact List.drop_left _ _
          rw [hdrop, ih hgp.2]
          rw [List.map_cons, renderP_cons]
          have hsp : substPiece b rep (Piece.tok b) = Piece.lit rep := by
            simp [substPiece]
          rw [hsp]
          rfl
        · refine ⟨by simp [tagStr_eq], ?_⟩
          rw [← hshape]
          exact List.prefix_append _ _
      · have hpre : ¬(tagStr a ≠ [] ∧ tagStr a <+: '{' :: ((b ++ ['}']) ++ renderP ps)) := by
          rintro ⟨-, hp⟩
          have hp' : tagStr a <+: tagStr b ++ renderP ps := hp
          exact hab (tok_of_tok_pref _ ha hbf hp').symm
        have hbc : ∀ c ∈ b ++ ['}'], c ≠ '{' := by
          intro c hc
          rcases List.mem_append.mp hc with hc | hc
          · exact ((braceFree_iff b).mp hbf c hc).1
          · rw [List.mem_singleton] at hc
            subst hc
            decide
        rw [renderP_cons]
        show replaceAll (tagStr b ++ renderP ps) (tagStr a) rep = _
        have hshape : tagStr b ++ renderP ps = '{' :: ((b ++ ['}']) ++ renderP ps) := rfl
        rw [hshape, replaceAll_cons, if_neg hpre]
        rw [tagStr_eq, replaceAll_skip '{' (a ++ ['}']) rep (renderP ps) (b ++ ['}']) hbc,
          ← tagStr_eq, ih hgp.2]
        rw [List.map_cons, renderP_cons]
        have hsp : substPiece a rep (Piece.tok b) = Piece.tok b := by
          simp [substPiece, hab]
        rw [hsp]
        rfl

/-- A rule whose tag name (and, for a List rule, whose values) contain no
brace characters — the interference-free discipline under which preview/commit
equivalence holds. -/
def Rule.goodR : Rule → Bool
  | .counter r => braceFree r.tag_name
  | .list r => braceFree r.tag_name && r.values.all braceFree
  | .batch r => braceFree r.tag_name

theorem tag_braceFree {r : Rule} (h : Rule.goodR r = true) :
    braceFree r.tag_name = true := by
  cases r with
  | counter r => exact h
  | list r =>
    have h' : braceFree r.tag_name = true ∧ r.values.all braceFree = true := by
      simpa [Rule.goodR] using h
    exact h'.1
  | batch r => exact h

theorem tag_get_value (r : Rule) (fi tf : Nat) :
    ((r.get_value fi tf).2).tag_name = r.tag_name := by
  cases r with
  | counter r => rfl
  | batch r => rfl
  | list r =>
    show ((r.get_value fi tf).2).tag_name = r.tag_name
    rw [ListRule.get_value]
    by_cases h : r.values = []
    · rw [if_pos h]
    · rw [if_neg h]

theorem tag_reset (r : Rule) : (r.reset).tag_name = r.tag_name := by
  cases r <;> rfl

theorem goodR_get_value (r : Rule) (fi tf : Nat) :
    Rule.goodR ((r.get_value fi tf).2) = Rule.goodR r := by
  cases r with
  | counter r => rfl
  | batch r => rfl
  | list r =>
    show Rule.goodR (.list (r.get_value fi tf).2) = _
    rw [ListRule.get_value]
    by_cases h : r.values = []
    · rw [if_pos h]
    · rw [if_neg h]
      rfl

theorem goodR_reset (r : Rule) : Rule.goodR (r.reset) = Rule.goodR r := by
  cases r <;> rfl

theorem value_braceFree (r : Rule) (h : Rule.goodR r = true) (fi tf : Nat) :
    braceFree ((r.get_value fi tf).1) = true := by
  cases r with
  | counter r => exact intStr_braceFree _
  | batch r => exact intStr_braceFree _
  | list r =>
    show braceFree ((r.get_value fi tf).1) = true
    rw [ListRule.get_value]
    by_cases hv : r.values = []
    · rw [if_pos hv]
      rfl
    · rw [if_neg hv]
      have hlen : 0 < r.values.length := List.length_pos.mpr hv
      have hlt : r.current_index % r.values.length < r.values.length :=
        Nat.mod_lt _ hlen
      have h' : braceFree r.tag_name = true ∧ r.values.all braceFree = true := by
        simpa [Rule.goodR] using h
      have hall : r.values.all braceFree = true := h'.2
      show braceFree (r.values.getD (r.current_index % r.values.length) []) = true
      rw [List.getD_eq_getElem r.values [] hlt]
      exact List.all_eq_true.mp hall _ (List.getElem_mem hlt)

/-- The pattern-expansion of one file at the piece level: walk the rules in
order, substituting the tag of each rule whose token occurs among the pieces. -/
def expandP (fi tf : Nat) : List Piece → List Rule → List Piece × List Rule
  | ps, [] => (ps, [])
  | ps, r :: rs =>
    if Piece.tok r.tag_name ∈ ps then
      let p := r.get_value fi tf
      let q := expandP fi tf (ps.map (substPiece r.tag_name p.1)) rs
      (q.1, p.2 :: q.2)
    else
      let q := expandP fi tf ps rs
      (q.1, r :: q.2)

/-- The first rule carrying a given tag. -/
def findRule (rs : List Rule) (a : Str) : Option Rule :=
  rs.find? fun r => r.tag_name == a

/-- Simultaneous substitution of every matched placeholder by its rule's
current value. -/
def substAll (fi tf : Nat) (rs : List Rule) : Piece → Piece
  | .lit s => .lit s
  | .tok a =>
    match findRule rs a with
    | some r => .lit ((r.get_value fi tf).1)
    | none => .tok a

theorem substAll_nil (fi tf : Nat) (p : Piece) : substAll fi tf [] p = p := by
  cases p <;> rfl

theorem substAll_args (fi tf fi' tf' : Nat) (rs : List Rule) (p : Piece) :
    substAll fi tf rs p = substAll fi' tf' rs p := by
  cases p with
  | lit s => rfl
  | tok a =>
    show (match findRule rs a with
      | some r => Piece.lit ((r.get_value fi tf).1)
      | none => Piece.tok a) =
      (match findRule rs a with
      | some r => Piece.lit ((r.get_value fi' tf').1)
      | none => Piece.tok a)
    cases findRule rs a with
    | none => rfl
    | some r =>
      show Piece.lit ((r.get_value fi tf).1) = Piece.lit ((r.get_value fi' tf').1)
      rw [Rule.get_value_args r fi tf fi' tf']

theorem goodPieces_map_subst (a v : Str) (hv : braceFree v = true) :
    ∀ ps : List Piece, goodPieces ps = true →
      goodPieces (ps.map (substPiece a v)) = true := by
  intro ps hg
  rw [goodPieces, List.all_eq_true] at hg ⊢
  intro p hp
  rcases List.mem_map.mp hp with ⟨q, hq, rfl⟩
  cases q with
  | lit s => exact hg _ hq
  | tok b =>
    show Piece.good (if b = a then Piece.lit v else Piece.tok b) = true
    by_cases hb : b = a
    · rw [if_pos hb]
      exact hv
    · rw [if_neg hb]
      exact hg _ hq

theorem mem_map_substPiece (a v b : Str) (hab : b ≠ a) (ps : List Piece) :
    Piece.tok b ∈ ps.map (substPiece a v) ↔ Piece.tok b ∈ ps := by
  constructor
  · intro h
    rcases List.mem_map.mp h with ⟨q, hq, hqe⟩
    cases q with
    | lit s => exact absurd hqe (by simp [substPiece])
    | tok c =>
      by_cases hc : c = a
      · rw [show substPiece a v (Piece.tok c) = Piece.lit v by simp [substPiece, hc]] at hqe
        exact absurd hqe (by simp)
      · rw [show substPiece a v (Piece.tok c) = Piece.tok c by simp [substPiece, hc]] at hqe
        rw [show c = b from (Piece.tok.injEq c b).mp hqe] at hq
        exact hq
  · intro h
    refine List.mem_map.mpr ⟨Piece.tok b, h, ?_⟩
    simp [substPiece, hab]

theorem findRule_cons_pos (r : Rule) (rs : List Rule) (a : Str) (h : r.tag_name = a) :
    findRule (r :: rs) a = some r := by
  rw [findRule, List.find?_cons_of_pos]
  exact beq_iff_eq.mpr h

theorem findRule_cons_neg (r : Rule) (rs : List Rule) (a : Str) (h : r.tag_name ≠ a) :
    findRule (r :: rs) a = findRule rs a := by
  rw [findRule, List.find?_cons_of_neg]
  · rfl
  · simpa using h

theorem substAll_cons (fi tf : Nat) (r : Rule) (rs : List Rule) (p : Piece) :
    substAll fi tf (r :: rs) p =
      substAll fi tf rs (substPiece r.tag_name ((r.get_value fi tf).1) p) := by
  cases p with
  | lit s => rfl
  | tok a =>
    by_cases ha : r.tag_name = a
    · have hsp : substPiece r.tag_name ((r.get_value fi tf).1) (Piece.tok a) =
          Piece.lit ((r.get_value fi tf).1) := by
        simp [substPiece, ha.symm]
      rw [hsp]
      show (match findRule (r :: rs) a with
        | some r' => Piece.lit ((r'.get_value fi tf).1)
        | none => Piece.tok a) = Piece.lit ((r.get_value fi tf).1)
      rw [findRule_cons_pos r rs a ha]
    · have hsp : substPiece r.tag_name ((r.get_value fi tf).1) (Piece.tok a) =
          Piece.tok a := by
        simp only [substPiece, if_neg (fun h : a = r.tag_name => ha h.symm)]
      rw [hsp]
      show (match findRule (r :: rs) a with
        | some r' => Piece.lit ((r'.get_value fi tf).1)
        | none => Piece.tok a) =
        (match findRule rs a with
        | some r' => Piece.lit ((r'.get_value fi tf).1)
        | none => Piece.tok a)
      rw [findRule_cons_neg r rs a ha]

theorem expandP_fst (fi tf : Nat) :
    ∀ (rs : List Rule) (ps : List Piece),
      (expandP fi tf ps rs).1 = ps.map (substAll fi tf rs) := by
  intro rs
  induction rs with
  | nil =>
    intro ps
    show ps = ps.map (substAll fi tf [])
    rw [show ps.map (substAll fi tf []) = ps.map id from
      List.map_congr_left fun p _ => (substAll_nil fi tf p).symm ▸ rfl]
    rw [List.map_id]
  | cons r rs ih =>
    intro ps
    by_cases hmem : Piece.tok r.tag_name ∈ ps
    · rw [expandP, if_pos hmem]
      dsimp only
      rw [ih]
      rw [List.map_map]
      exact List.map_congr_left fun p _ => (substAll_cons fi tf r rs p).symm
    · rw [expandP, if_neg hmem]
      dsimp only
      rw [ih]
      refine List.map_congr_left fun p hp => ?_
      cases p with
      | lit s => rfl
      | tok a =>
        have ha : r.tag_name ≠ a := by
          intro h
          subst h
          exact hmem hp
        show (match findRule rs a with
          | some r' => Piece.lit ((r'.get_value fi tf).1)
          | none => Piece.tok a) =
          (match findRule (r :: rs) a with
          | some r' => Piece.lit ((r'.get_value fi tf).1)
          | none => Piece.tok a)
        rw [findRule_cons_neg r rs a ha]

theorem expandP_snd (fi tf : Nat) :
    ∀ (rs : List Rule) (ps : List Piece),
      ((rs.map Rule.tag_name).Nodup) →
      (expandP fi tf ps rs).2 =
        rs.map fun r => if Piece.tok r.tag_name ∈ ps then (r.get_value fi tf).2 else r := by
  intro rs
  induction rs with
  | nil => intro ps _; rfl
  | cons r rs ih =>
    intro ps hN
    rw [List.map_cons, List.nodup_cons] at hN
    by_cases hmem : Piece.tok r.tag_name ∈ ps
    · rw [expandP, if_pos hmem]
      dsimp only
      rw [List.map_cons, if_pos hmem]
      congr 1
      rw [ih _ hN.2]
      refine List.map_congr_left fun r' hr' => ?_
      have hne : r'.tag_name ≠ r.tag_name := by
        intro h
        exact hN.1 (h ▸ List.mem_map_of_mem Rule.tag_name hr')
      exact if_congr (mem_map_substPiece r.tag_name _ r'.tag_name hne ps) rfl rfl
    · rw [expandP, if_neg hmem]
      dsimp only
      rw [List.map_cons, if_neg hmem]
      congr 1
      exact ih _ hN.2

theorem generate_filename_eq_expandP (fi tf : Nat) :
    ∀ (rs : List Rule) (ps : List Piece),
      goodPieces ps = true → (∀ r ∈ rs, Rule.goodR r = true) →
      generate_filename fi tf (renderP ps) rs =
        (renderP ((expandP fi tf ps rs).1), (expandP fi tf ps rs).2) := by
  intro rs
  induction rs with
  | nil => intro ps _ _; rfl
  | cons r rs ih =>
    intro ps hg hr
    have hgr : Rule.goodR r = true := hr r (List.mem_cons_self r rs)
    have hbf : braceFree r.tag_name = true := tag_braceFree hgr
    have hco := containsSub_renderP r.tag_name hbf ps hg
    by_cases hmem : Piece.tok r.tag_name ∈ ps
    · have hc : containsSub (renderP ps) (tagOf r) = true := hco.mpr hmem
      rw [generate_filename, if_pos hc, expandP, if_pos hmem]
      dsimp only
      rw [show tagOf r = tagStr r.tag_name from rfl,
        replaceAll_renderP r.tag_name ((r.get_value fi tf).1) hbf ps hg]
      rw [ih (ps.map (substPiece r.tag_name ((r.get_value fi tf).1)))
        (goodPieces_map_subst _ _ (value_braceFree r hgr fi tf) ps hg)
        (fun r' h' => hr r' (List.mem_cons_of_mem _ h'))]
    · have hc : ¬(containsSub (renderP ps) (tagOf r) = true) := fun h => hmem (hco.mp h)
      rw [generate_filename, if_neg hc, expandP, if_neg hmem]
      dsimp only
      rw [ih ps hg (fun r' h' => hr r' (List.mem_cons_of_mem _ h'))]

theorem tag_tempCopy (r : Rule) : (_create_temp_rule_copy r).tag_name = r.tag_name := by
  cases r <;> rfl

theorem goodR_tempCopy (r : Rule) :
    Rule.goodR (_create_temp_rule_copy r) = Rule.goodR r := by
  cases r <;> rfl

theorem tag_runCalls (total : Nat) :
    ∀ (k : Nat) (r : Rule) (j : Nat), (runCalls total r j k).tag_name = r.tag_name := by
  intro k
  induction k with
  | zero => intro r j; rfl
  | succ k ih =>
    intro r j
    show (runCalls total ((r.get_value j total).2) (j + 1) k).tag_name = _
    rw [ih, tag_get_value]

theorem goodR_runCalls (total : Nat) :
    ∀ (k : Nat) (r : Rule) (j : Nat), Rule.goodR (runCalls total r j k) = Rule.goodR r := by
  intro k
  induction k with
  | zero => intro r j; rfl
  | succ k ih =>
    intro r j
    show Rule.goodR (runCalls total ((r.get_value j total).2) (j + 1) k) = _
    rw [ih, goodR_get_value]

theorem preview_eq_expandP (fi tf : Nat) :
    ∀ (rs : List Rule) (ps : List Piece),
      goodPieces ps = true → (∀ r ∈ rs, Rule.goodR r = true) →
      (generate_filename_preview fi tf (renderP ps) rs).1 =
        renderP ((expandP fi tf ps
          (rs.map fun r => runCalls tf (_create_temp_rule_copy r) 0 fi)).1) := by
  intro rs
  induction rs with
  | nil => intro ps _ _; rfl
  | cons r rs ih =>
    intro ps hg hr
    have hgr : Rule.goodR r = true := hr r (List.mem_cons_self r rs)
    have hbf : braceFree r.tag_name = true := tag_braceFree hgr
    have hco := containsSub_renderP r.tag_name hbf ps hg
    have htag : (runCalls tf (_create_temp_rule_copy r) 0 fi).tag_name = r.tag_name := by
      rw [tag_runCalls, tag_tempCopy]
    have hgood : Rule.goodR (runCalls tf (_create_temp_rule_copy r) 0 fi) = true := by
      rw [goodR_runCalls, goodR_tempCopy]
      exact hgr
    rw [List.map_cons]
    by_cases hmem : Piece.tok r.tag_name ∈ ps
    · have hc : containsSub (renderP ps) (tagOf r) = true := hco.mpr hmem
      have hmem' : Piece.tok (runCalls tf (_create_temp_rule_copy r) 0 fi).tag_name ∈ ps := by
        rw [htag]
        exact hmem
      rw [generate_filename_preview, if_pos hc, expandP, if_pos hmem']
      dsimp only
      rw [show tagOf r = tagStr r.tag_name from rfl,
        replaceAll_renderP r.tag_name
          (((runCalls tf (_create_temp_rule_copy r) 0 fi).get_value fi tf).1) hbf ps hg]
      have hpieces :
          ps.map (substPiece (runCalls tf (_create_temp_rule_copy r) 0 fi).tag_name
            (((runCalls tf (_create_temp_rule_copy r) 0 fi).get_value fi tf).1)) =
          ps.map (substPiece r.tag_name
            (((runCalls tf (_create_temp_rule_copy r) 0 fi).get_value fi tf).1)) := by
        rw [htag]
      rw [hpieces]
      exact ih (ps.map (substPiece r.tag_name _))
        (goodPieces_map_subst _ _ (value_braceFree _ hgood fi tf) ps hg)
        (fun r' h' => hr r' (List.mem_cons_of_mem _ h'))
    · have hc : ¬(containsSub (renderP ps) (tagOf r) = true) := fun h => hmem (hco.mp h)
      have hmem' : ¬(Piece.tok (runCalls tf (_create_temp_rule_copy r) 0 fi).tag_name ∈ ps) := by
        rw [htag]
        exact hmem
      rw [generate_filename_preview, if_neg hc, expandP, if_neg hmem']
      dsimp only
      exact ih ps hg (fun r' h' => hr r' (List.mem_cons_of_mem _ h'))

/-- Iterated `get_value` (call ordinals are irrelevant to every variant). -/
def iterCalls : Nat → Rule → Rule
  | 0, r => r
  | k + 1, r => iterCalls k ((r.get_value 0 0).2)

theorem iterCalls_succ_right : ∀ (k : Nat) (r : Rule),
    iterCalls (k + 1) r = ((iterCalls k r).get_value 0 0).2 := by
  intro k
  induction k with
  | zero => intro r; rfl
  | succ k ih =>
    intro r
    show iterCalls (k + 1) ((r.get_value 0 0).2) = _
    rw [ih]
    rfl

theorem runCalls_eq_iterCalls (total : Nat) :
    ∀ (k : Nat) (r : Rule) (j : Nat), runCalls total r j k = iterCalls k r := by
  intro k
  induction k with
  | zero => intro r j; rfl
  | succ k ih =>
    intro r j
    show runCalls total ((r.get_value j total).2) (j + 1) k = iterCalls k ((r.get_value 0 0).2)
    rw [ih, Rule.get_value_args r j total 0 0]

theorem tempCopy_eq_reset (r : Rule) : _create_temp_rule_copy r = r.reset := by
  cases r <;> rfl

theorem tag_iterCalls : ∀ (k : Nat) (r : Rule), (iterCalls k r).tag_name = r.tag_name := by
  intro k
  induction k with
  | zero => intro r; rfl
  | succ k ih =>
    intro r
    show (iterCalls k ((r.get_value 0 0).2)).tag_name = _
    rw [ih, tag_get_value]

theorem goodR_iterCalls : ∀ (k : Nat) (r : Rule),
    Rule.goodR (iterCalls k r) = Rule.goodR r := by
  intro k
  induction k with
  | zero => intro r; rfl
  | succ k ih =>
    intro r
    show Rule.goodR (iterCalls k ((r.get_value 0 0).2)) = _
    rw [ih, goodR_get_value]

/-- The state a rule has reached just before file `k` of a commit pass over a
pattern with pieces `ps`: reset at the start of the pass, then stepped once
per preceding file iff its tag occurs in the pattern. -/
def stateAt (ps : List Piece) (k : Nat) (r : Rule) : Rule :=
  if Piece.tok r.tag_name ∈ ps then iterCalls k r.reset else r.reset

theorem stateAt_zero (ps : List Piece) (r : Rule) : stateAt ps 0 r = r.reset := by
  unfold stateAt
  split <;> rfl

theorem tag_stateAt (ps : List Piece) (k : Nat) (r : Rule) :
    (stateAt ps k r).tag_name = r.tag_name := by
  unfold stateAt
  split
  · rw [tag_iterCalls, tag_reset]
  · rw [tag_reset]

theorem goodR_stateAt (ps : List Piece) (k : Nat) (r : Rule) :
    Rule.goodR (stateAt ps k r) = Rule.goodR r := by
  unfold stateAt
  split
  · rw [goodR_iterCalls, goodR_reset]
  · rw [goodR_reset]

theorem expandP_snd_stateAt (fi tf : Nat) (ps : List Piece) (rs : List Rule)
    (hN : (rs.map Rule.tag_name).Nodup) (j : Nat) :
    (expandP fi tf ps (rs.map (stateAt ps j))).2 = rs.map (stateAt ps (j + 1)) := by
  have hmapN : ((rs.map (stateAt ps j)).map Rule.tag_name).Nodup := by
    rw [List.map_map]
    have he : rs.map (Rule.tag_name ∘ stateAt ps j) = rs.map Rule.tag_name :=
      List.map_congr_left fun r _ => tag_stateAt ps j r
    rw [he]
    exact hN
  rw [expandP_snd fi tf _ ps hmapN, List.map_map]
  refine List.map_congr_left fun r _ => ?_
  show (if Piece.tok (stateAt ps j r).tag_name ∈ ps
      then ((stateAt ps j r).get_value fi tf).2 else stateAt ps j r) = stateAt ps (j + 1) r
  rw [show Piece.tok (stateAt ps j r).tag_name = Piece.tok r.tag_name from
    congrArg _ (tag_stateAt ps j r)]
  by_cases hmem : Piece.tok r.tag_name ∈ ps
  · rw [if_pos hmem]
    unfold stateAt
    rw [if_pos hmem, if_pos hmem]
    rw [show ((iterCalls j r.reset).get_value fi tf).2 = ((iterCalls j r.reset).get_value 0 0).2
      from congrArg Prod.snd (Rule.get_value_args _ fi tf 0 0)]
    exact (iterCalls_succ_right j r.reset).symm
  · rw [if_neg hmem]
    unfold stateAt
    rw [if_neg hmem, if_neg hmem]

theorem commitPassAux_get? (ps : List Piece) (tf : Nat) (rs : List Rule)
    (hg : goodPieces ps = true) (hr : ∀ r ∈ rs, Rule.goodR r = true)
    (hN : (rs.map Rule.tag_name).Nodup) :
    ∀ (k j i d : Nat), d < k →
      ((commitPassAux (renderP ps) tf i k (rs.map (stateAt ps j))).1).get? d =
        some (renderP (ps.map (substAll 0 0 (rs.map (stateAt ps (j + d)))))) := by
  intro k
  induction k with
  | zero => intro j i d hd; simp at hd
  | succ k ih =>
    intro j i d hd
    have hrS : ∀ r' ∈ rs.map (stateAt ps j), Rule.goodR r' = true := by
      intro r' h'
      rcases List.mem_map.mp h' with ⟨r, hrm, rfl⟩
      rw [goodR_stateAt]
      exact hr r hrm
    have hgen := generate_filename_eq_expandP i tf (rs.map (stateAt ps j)) ps hg hrS
    rw [commitPassAux]
    dsimp only
    cases d with
    | zero =>
      rw [Nat.add_zero, List.get?_cons_zero]
      congr 1
      rw [show (generate_filename i tf (renderP ps) (rs.map (stateAt ps j))).1 =
          renderP ((expandP i tf ps (rs.map (stateAt ps j))).1) from congrArg Prod.fst hgen]
      rw [expandP_fst]
      congr 1
      refine List.map_congr_left fun p _ => ?_
      rw [substAll_args i tf 0 0]
      rfl
    | succ d =>
      rw [List.get?_cons_succ]
      have hsnd : (generate_filename i tf (renderP ps) (rs.map (stateAt ps j))).2 =
          rs.map (stateAt ps (j + 1)) := by
        rw [show (generate_filename i tf (renderP ps) (rs.map (stateAt ps j))).2 =
            (expandP i tf ps (rs.map (stateAt ps j))).2 from congrArg Prod.snd hgen]
        exact expandP_snd_stateAt i tf ps rs hN j
      rw [hsnd, ih (j + 1) (i + 1) d (by omega)]
      have harith : j + 1 + d = j + (d + 1) := by omega
      rw [harith]

theorem findRule_map (f : Rule → Rule) (hf : ∀ r, (f r).tag_name = r.tag_name) :
    ∀ (rs : List Rule) (a : Str), findRule (rs.map f) a = (findRule rs a).map f := by
  intro rs
  induction rs with
  | nil => intro a; rfl
  | cons r rs ih =>
    intro a
    rw [List.map_cons]
    by_cases h : r.tag_name = a
    · rw [findRule_cons_pos (f r) _ a (by rw [hf]; exact h), findRule_cons_pos r rs a h]
      rfl
    · rw [findRule_cons_neg (f r) _ a (by rw [hf]; exact h), findRule_cons_neg r rs a h, ih]

theorem findRule_some_tag {rs : List Rule} {a : Str} {r : Rule}
    (h : findRule rs a = some r) : r.tag_name = a := by
  have := List.find?_some h
  exact beq_iff_eq.mp this

theorem commitLoopC_genNames (pattern : Str) (total : Nat) (action : FileAction) :
    ∀ (fs : List TFile) (i : Nat) (st : CommitSt),
      (∀ f ∈ fs, f.still_exists = true ∧ f.copy_ok = true) →
      ((commitLoopC pattern total action i fs st).1).genNames =
        st.genNames ++ (commitPassAux pattern total i fs.length st.rules).1 := by
  intro fs
  induction fs with
  | nil => intro i st _; simp [commitLoopC, commitPassAux]
  | cons f fs ih =>
    intro i st hok
    have hf := hok f (List.mem_cons_self f fs)
    have hfs : ∀ f' ∈ fs, f'.still_exists = true ∧ f'.copy_ok = true :=
      fun f' h' => hok f' (List.mem_cons_of_mem _ h')
    rw [commitLoopC, if_pos hf.1]
    dsimp only
    have hpass : (commitPassAux pattern total i (f :: fs).length st.rules).1 =
        (generate_filename i total pattern st.rules).1 ::
          (commitPassAux pattern total (i + 1) fs.length
            ((generate_filename i total pattern st.rules).2)).1 := by
      show (commitPassAux pattern total i (fs.length + 1) st.rules).1 = _
      rw [commitPassAux]
    rw [hpass]
    by_cases hdp : (generate_filename i total pattern st.rules).1 ++ f.ext ∈ st.dest
    · rw [if_pos hdp]
      cases action with
      | ignore =>
        rw [ih _ _ hfs]
        simp
      | rename =>
        simp only [copyStep, hf.2, if_true]
        rw [ih _ _ hfs]
        simp
      | overwrite =>
        simp only [copyStep, hf.2, if_true]
        rw [ih _ _ hfs]
        simp
    · rw [if_neg hdp]
      simp only [copyStep, hf.2, if_true]
      rw [ih _ _ hfs]
      simp

/-- C1 (amended): for patterns that decompose into brace-free literal text and
`{name}` placeholders with brace-free names, rules with brace-free, pairwise
distinct tag names, and List values free of brace characters — so that no
substituted value can create or destroy another rule's placeholder — the
preview of index `i` (a pure function, hence independent of the order previews
are computed in) equals the name a real commit pass over `n` files produces at
position `i`; and such a commit pass is exactly what `copy_and_rename`'s loop
generates when every tracked file exists and copies cleanly.  (Freshness of
the RuleSet is not even needed: both sides reset Counter/List state and copy
Batch progress.)  Without the interference condition the equivalence fails,
see the counterexample. -/
theorem preview_matches_commit_for_separated_patterns
    (ps : List Piece) (rs : List Rule) (n i : Nat)
    (hg : goodPieces ps = true)
    (hr : ∀ r ∈ rs, Rule.goodR r = true)
    (hN : (rs.map Rule.tag_name).Nodup)
    (hi : i < n) :
    (generate_filename_preview i n (renderP ps) rs).1 =
      ((commitPass (renderP ps) n rs).1.get? i).getD [] ∧
    (∀ (action : FileAction) (tracked : List TFile) (dest : List Str),
      (∀ f ∈ tracked, f.still_exists = true ∧ f.copy_ok = true) →
      ((commitLoopC (renderP ps) tracked.length action 0 tracked
          ⟨rs.map Rule.reset, dest, 0, 0, [], []⟩).1).genNames =
        (commitPass (renderP ps) tracked.length rs).1) := by
  constructor
  · rw [preview_eq_expandP i n rs ps hg hr, expandP_fst]
    have hreset : rs.map Rule.reset = rs.map (stateAt ps 0) :=
      List.map_congr_left fun r _ => (stateAt_zero ps r).symm
    rw [commitPass, hreset, commitPassAux_get? ps n rs hg hr hN n 0 0 i hi,
      Nat.zero_add, Option.getD_some]
    congr 1
    refine List.map_congr_left fun p hp => ?_
    rw [substAll_args i n 0 0]
    cases p with
    | lit s => rfl
    | tok a =>
      have hf1 := findRule_map (fun r => runCalls n (_create_temp_rule_copy r) 0 i)
        (fun r => by rw [tag_runCalls, tag_tempCopy]) rs a
      have hf2 := findRule_map (stateAt ps i) (tag_stateAt ps i) rs a
      cases hfr : findRule rs a with
      | none =>
        have h1 : findRule (rs.map fun r => runCalls n (_create_temp_rule_copy r) 0 i) a =
            none := by rw [hf1, hfr]; rfl
        have h2 : findRule (rs.map (stateAt ps i)) a = none := by rw [hf2, hfr]; rfl
        show (match findRule (rs.map fun r => runCalls n (_create_temp_rule_copy r) 0 i) a with
          | some r => Piece.lit ((r.get_value 0 0).1)
          | none => Piece.tok a) =
          (match findRule (rs.map (stateAt ps i)) a with
          | some r => Piece.lit ((r.get_value 0 0).1)
          | none => Piece.tok a)
        rw [h1, h2]
      | some r₀ =>
        have h1 : findRule (rs.map fun r => runCalls n (_create_temp_rule_copy r) 0 i) a =
            some (runCalls n (_create_temp_rule_copy r₀) 0 i) := by rw [hf1, hfr]; rfl
        have h2 : findRule (rs.map (stateAt ps i)) a = some (stateAt ps i r₀) := by
          rw [hf2, hfr]
          rfl
        show (match findRule (rs.map fun r => runCalls n (_create_temp_rule_copy r) 0 i) a with
          | some r => Piece.lit ((r.get_value 0 0).1)
          | none => Piece.tok a) =
          (match findRule (rs.map (stateAt ps i)) a with
          | some r => Piece.lit ((r.get_value 0 0).1)
          | none => Piece.tok a)
        rw [h1, h2]
        show Piece.lit (((runCalls n (_create_temp_rule_copy r₀) 0 i).get_value 0 0).1) =
          Piece.lit (((stateAt ps i r₀).get_value 0 0).1)
        have heqr : runCalls n (_create_temp_rule_copy r₀) 0 i = stateAt ps i r₀ := by
          rw [runCalls_eq_iterCalls, tempCopy_eq_reset]
          unfold stateAt
          rw [findRule_some_tag hfr, if_pos hp]
        rw [heqr]
  · intro action tracked dest hexok
    rw [commitLoopC_genNames (renderP ps) tracked.length action tracked 0 _ hexok]
    show [] ++ (commitPassAux (renderP ps) tracked.length 0 tracked.length
      (rs.map Rule.reset)).1 = _
    rw [List.nil_append]
    rfl

/-- C1 counterexample: with the pattern `{a}`, a List rule `a` whose second
value is the literal text `{b}`, and a fresh Counter rule `b`, the commit pass
over 2 files names file 1 `0` (rule `b` is invoked for the first time there,
having been skipped at file 0 where its tag was absent), while the preview of
index 1 replays rule `b` twice and shows `1`. -/
theorem preview_commit_counterexample :
    (1 : Nat) < 2 ∧
    (generate_filename_preview 1 2 ['{', 'a', '}']
        [Rule.list ⟨['a'], [['x'], ['{', 'b', '}']], 1, 0, 0⟩,
         Rule.counter ⟨['b'], 0, 1, 1, none, 0, 0⟩]).1 ≠
      ((commitPass ['{', 'a', '}'] 2
          [Rule.list ⟨['a'], [['x'], ['{', 'b', '}']], 1, 0, 0⟩,
           Rule.counter ⟨['b'], 0, 1, 1, none, 0, 0⟩]).1.get? 1).getD [] := by
  decide

theorem preview_matches_commit_witness :
    goodPieces [Piece.lit ['f', '_'], Piece.tok ['c']] = true ∧
    (∀ r ∈ [Rule.counter ⟨['c'], 1, 1, 1, none, 1, 0⟩], Rule.goodR r = true) ∧
    (([Rule.counter ⟨['c'], 1, 1, 1, none, 1, 0⟩].map Rule.tag_name).Nodup) ∧
    (2 : Nat) < 3 ∧
    ((generate_filename_preview 2 3
        (renderP [Piece.lit ['f', '_'], Piece.tok ['c']])
        [Rule.counter ⟨['c'], 1, 1, 1, none, 1, 0⟩]).1 =
      ((commitPass (renderP [Piece.lit ['f', '_'], Piece.tok ['c']]) 3
          [Rule.counter ⟨['c'], 1, 1, 1, none, 1, 0⟩]).1.get? 2).getD [] ∧
     (∀ (action : FileAction) (tracked : List TFile) (dest : List Str),
       (∀ f ∈ tracked, f.still_exists = true ∧ f.copy_ok = true) →
       ((commitLoopC (renderP [Piece.lit ['f', '_'], Piece.tok ['c']])
           tracked.length action 0 tracked
           ⟨[Rule.counter ⟨['c'], 1, 1, 1, none, 1, 0⟩].map Rule.reset,
             dest, 0, 0, [], []⟩).1).genNames =
         (commitPass (renderP [Piece.lit ['f', '_'], Piece.tok ['c']])
           tracked.length [Rule.counter ⟨['c'], 1, 1, 1, none, 1, 0⟩]).1)) :=
  ⟨by decide, by decide, by decide, by decide,
   preview_matches_commit_for_separated_patterns
     [Piece.lit ['f', '_'], Piece.tok ['c']]
     [Rule.counter ⟨['c'], 1, 1, 1, none, 1, 0⟩] 3 2
     (by decide) (by decide) (by decide) (by decide)⟩

theorem replaceAll_preserves_tag (a t rep : Str) (ha : braceFree a = true)
    (ht : braceFree t = true) (hne : a ≠ t) :
    ∀ s : Str, containsSub s (tagStr t) = true →
      containsSub (replaceAll s (tagStr a) rep) (tagStr t) = true := by
  suffices H : ∀ (m : Nat) (s : Str), s.length ≤ m → containsSub s (tagStr t) = true →
      containsSub (replaceAll s (tagStr a) rep) (tagStr t) = true from
    fun s => H s.length s (Nat.le_refl _)
  intro m
  induction m with
  | zero =>
    intro s hs hcon
    have hnil : s = [] := List.length_eq_zero.mp (Nat.le_zero.mp hs)
    subst hnil
    have hfalse : containsSub [] (tagStr t) = false := rfl
    rw [hfalse] at hcon
    exact Bool.noConfusion hcon
  | succ m ih =>
    intro s hs hcon
    match s with
    | [] =>
      have hfalse : containsSub [] (tagStr t) = false := rfl
      rw [hfalse] at hcon
      exact Bool.noConfusion hcon
    | c :: cs =>
      have hcs_len : cs.length ≤ m := by
        simp only [List.length_cons] at hs
        omega
      have hcon' : ((tagStr t).isPrefixOf (c :: cs) || containsSub cs (tagStr t)) = true := hcon
      rw [replaceAll_cons]
      by_cases hC : tagStr a ≠ [] ∧ tagStr a <+: (c :: cs)
      · rw [if_pos hC]
        obtain ⟨rest, hrest⟩ := hC.2
        rw [Bool.or_eq_true] at hcon'
        rcases hcon' with hpre | htail
        · exfalso
          rw [ List.isPrefixOf_iff_prefix] at hpre
          by_cases hlen : (tagStr a).length ≤ (tagStr t).length
          · have hpp : tagStr a <+: tagStr t :=
              List.prefix_of_prefix_length_le hC.2 hpre hlen
            exact hne (tok_of_tok_pref [] ha ht (by rw [List.append_nil]; exact hpp))
          · have hpp : tagStr t <+: tagStr a :=
              List.prefix_of_prefix_length_le hpre hC.2 (by omega)
            exact hne (tok_of_tok_pref [] ht ha (by rw [List.append_nil]; exact hpp)).symm
        · have hshape : '{' :: ((a ++ ['}']) ++ rest) = c :: cs := hrest
          have hcs : cs = (a ++ ['}']) ++ rest := ((List.cons.injEq _ _ _ _).mp hshape).2.symm
          have hchars : ∀ x ∈ a ++ ['}'], x ≠ '{' := by
            intro x hx
            rcases List.mem_append.mp hx with hx | hx
            · exact ((braceFree_iff a).mp ha x hx).1
            · rw [List.mem_singleton] at hx
              subst hx
              decide
          have htail' : containsSub ((a ++ ['}']) ++ rest) (tagStr t) = true := by
            rw [← hcs]
            exact htail
          have hrest_con : containsSub rest (tagStr t) = true := by
            rw [tagStr_eq t, containsSub_skip '{' (t ++ ['}']) rest (a ++ ['}']) hchars]
              at htail'
            rw [tagStr_eq t]
            exact htail'
          have hrest_len : rest.length ≤ m := by
            have hlen := congrArg List.length hshape
            simp only [List.length_cons, List.length_append] at hlen hs
            omega
          have hdrop : (c :: cs).drop (tagStr a).length = rest := by
            rw [← hrest]
            exact List.drop_left _ _
          rw [hdrop]
          exact containsSub_append_right (tagStr t) _ rep (ih rest hrest_len hrest_con)
      · rw [if_neg hC]
        rw [Bool.or_eq_true] at hcon'
        rcases hcon' with hpre | htail
        · rw [ List.isPrefixOf_iff_prefix] at hpre
          obtain ⟨w, hw⟩ := hpre
          have hshape : '{' :: ((t ++ ['}']) ++ w) = c :: cs := hw
          have hc : '{' = c := ((List.cons.injEq _ _ _ _).mp hshape).1
          have hcs : cs = (t ++ ['}']) ++ w := ((List.cons.injEq _ _ _ _).mp hshape).2.symm
          have hchars : ∀ x ∈ t ++ ['}'], x ≠ '{' := by
            intro x hx
            rcases List.mem_append.mp hx with hx | hx
            · exact ((braceFree_iff t).mp ht x hx).1
            · rw [List.mem_singleton] at hx
              subst hx
              decide
          rw [hcs, tagStr_eq a,
            replaceAll_skip '{' (a ++ ['}']) rep w (t ++ ['}']) hchars, ← tagStr_eq a,
            ← hc]
          show ((tagStr t).isPrefixOf
              ('{' :: ((t ++ ['}']) ++ replaceAll w (tagStr a) rep)) ||
            containsSub ((t ++ ['}']) ++ replaceAll w (tagStr a) rep) (tagStr t)) = true
          have hpre2 : (tagStr t).isPrefixOf
              ('{' :: ((t ++ ['}']) ++ replaceAll w (tagStr a) rep)) = true := by
            rw [ List.isPrefixOf_iff_prefix]
            show tagStr t <+: tagStr t ++ replaceAll w (tagStr a) rep
            exact List.prefix_append _ _
          rw [hpre2, Bool.true_or]
        · have hrec := ih cs hcs_len htail
          show ((tagStr t).isPrefixOf (c :: replaceAll cs (tagStr a) rep) ||
            containsSub (replaceAll cs (tagStr a) rep) (tagStr t)) = true
          rw [hrec, Bool.or_true]

theorem generate_filename_preserves_unmatched (fi tf : Nat) (t : Str)
    (ht : braceFree t = true) :
    ∀ (rs : List Rule) (pattern : Str),
      (∀ r ∈ rs, braceFree r.tag_name = true) →
      (∀ r ∈ rs, r.tag_name ≠ t) →
      containsSub pattern (tagStr t) = true →
      containsSub ((generate_filename fi tf pattern rs).1) (tagStr t) = true := by
  intro rs
  induction rs with
  | nil => intro pattern _ _ h; exact h
  | cons r rs ih =>
    intro pattern hbf hne hcon
    by_cases hc : containsSub pattern (tagOf r) = true
    · rw [generate_filename, if_pos hc]
      dsimp only
      exact ih _ (fun r' h' => hbf r' (List.mem_cons_of_mem _ h'))
        (fun r' h' => hne r' (List.mem_cons_of_mem _ h'))
        (replaceAll_preserves_tag r.tag_name t _ (hbf r (List.mem_cons_self r rs)) ht
          (hne r (List.mem_cons_self r rs)) pattern hcon)
    · rw [generate_filename, if_neg hc]
      dsimp only
      exact ih _ (fun r' h' => hbf r' (List.mem_cons_of_mem _ h'))
        (fun r' h' => hne r' (List.mem_cons_of_mem _ h')) hcon

/-- C4 (amended): expansion walks the rules in RuleSet order over the working
pattern.  A rule whose tag occurs in the working pattern at its turn is
invoked once and every occurrence of its tag is replaced (Python
`str.replace`); a rule whose tag is absent from the working pattern at its
turn is not invoked and consumes no step — absence from the original pattern
is not enough, because an earlier rule's value can introduce the tag (see the
counterexample).  A placeholder `{t}` with no corresponding rule never raises
an error and survives to the output whenever tag names (and `t`) are
brace-free, whatever the substituted values are. -/
theorem pattern_expansion_spec (fi tf : Nat) (pattern : Str) (r : Rule)
    (rs : List Rule) (t : Str) :
    (containsSub pattern (tagOf r) = true →
      generate_filename fi tf pattern (r :: rs) =
        ((generate_filename fi tf
            (replaceAll pattern (tagOf r) ((r.get_value fi tf).1)) rs).1,
         (r.get_value fi tf).2 ::
           (generate_filename fi tf
             (replaceAll pattern (tagOf r) ((r.get_value fi tf).1)) rs).2)) ∧
    (containsSub pattern (tagOf r) = false →
      generate_filename fi tf pattern (r :: rs) =
        ((generate_filename fi tf pattern rs).1,
         r :: (generate_filename fi tf pattern rs).2)) ∧
    (braceFree t = true → (∀ r' ∈ rs, braceFree r'.tag_name = true) →
      (∀ r' ∈ rs, r'.tag_name ≠ t) →
      containsSub pattern (tagStr t) = true →
      containsSub ((generate_filename fi tf pattern rs).1) (tagStr t) = true) := by
  refine ⟨fun hc => ?_, fun hc => ?_, fun ht h1 h2 h3 =>
    generate_filename_preserves_unmatched fi tf t ht rs pattern h1 h2 h3⟩
  · rw [generate_filename, if_pos hc]
  · rw [generate_filename, if_neg (by rw [hc]; exact Bool.false_ne_true)]

/-- C4 counterexample: with pattern `{a}` the Counter rule `b` is invoked —
consuming a step and advancing its value — even though its tag `{b}` does not
occur in the pattern: the List rule `a` substitutes the text `{b}` into the
working pattern first. -/
theorem pattern_expansion_counterexample :
    containsSub ['{', 'a', '}'] (tagStr ['b']) = false ∧
    (generate_filename 0 2 ['{', 'a', '}']
        [Rule.list ⟨['a'], [['{', 'b', '}'], ['x']], 1, 0, 0⟩,
         Rule.counter ⟨['b'], 0, 1, 1, none, 0, 0⟩]).2.get? 1 =
      some (Rule.counter ⟨['b'], 0, 1, 1, none, 1, 1⟩) := by
  decide

theorem pattern_expansion_spec_witness :
    (containsSub ['{', 'c', '}'] (tagOf (Rule.counter ⟨['c'], 0, 1, 1, none, 0, 0⟩)) =
        true) ∧
    (containsSub ['x'] (tagOf (Rule.counter ⟨['c'], 0, 1, 1, none, 0, 0⟩)) = false) ∧
    (generate_filename 0 2 ['{', 'c', '}']
        [Rule.counter ⟨['c'], 0, 1, 1, none, 0, 0⟩] =
      ((generate_filename 0 2
          (replaceAll ['{', 'c', '}'] (tagOf (Rule.counter ⟨['c'], 0, 1, 1, none, 0, 0⟩))
            (((Rule.counter ⟨['c'], 0, 1, 1, none, 0, 0⟩).get_value 0 2).1)) []).1,
       ((Rule.counter ⟨['c'], 0, 1, 1, none, 0, 0⟩).get_value 0 2).2 ::
         (generate_filename 0 2
           (replaceAll ['{', 'c', '}'] (tagOf (Rule.counter ⟨['c'], 0, 1, 1, none, 0, 0⟩))
             (((Rule.counter ⟨['c'], 0, 1, 1, none, 0, 0⟩).get_value 0 2).1)) []).2)) ∧
    (generate_filename 0 2 ['x'] [Rule.counter ⟨['c'], 0, 1, 1, none, 0, 0⟩] =
      ((generate_filename 0 2 ['x'] []).1,
       Rule.counter ⟨['c'], 0, 1, 1, none, 0, 0⟩ :: (generate_filename 0 2 ['x'] []).2)) ∧
    containsSub ((generate_filename 0 2 ['{', 't', '}']
        [Rule.counter ⟨['c'], 0, 1, 1, none, 0, 0⟩]).1) (tagStr ['t']) = true :=
  ⟨by decide, by decide,
   (pattern_expansion_spec 0 2 ['{', 'c', '}'] (Rule.counter ⟨['c'], 0, 1, 1, none, 0, 0⟩)
     [] ['t']).1 (by decide),
   (pattern_expansion_spec 0 2 ['x'] (Rule.counter ⟨['c'], 0, 1, 1, none, 0, 0⟩)
     [] ['t']).2.1 (by decide),
   (pattern_expansion_spec 0 2 ['{', 't', '}'] (Rule.counter ⟨['c'], 0, 1, 1, none, 0, 0⟩)
     [Rule.counter ⟨['c'], 0, 1, 1, none, 0, 0⟩] ['t']).2.2 (by decide)
     (by decide) (by decide) (by decide)⟩
